import Mathlib

/-!
Verification development for the Project & Workspace Resolution Engine of an
Elm language server (dependency version solver, project/package loader,
module-resolution index, source forest and workspace orchestrator).

The definitions below are a shallow embedding of the TypeScript sources
(`ElmWorkspace`, `ElmPackageCache`, `References`, providers).  Pieces of the
engine whose source files are not part of the repository snapshot
(`util/elmUtils.ts` with `solveDependencies` / `parseVersion` /
`parseConstraint`, `forest.ts`, `util/path.ts`) are modelled from the
specification document; each such definition carries a doc comment starting
with `Modelled from the spec:`.

Machine conventions: JavaScript `Map` objects are embedded as association
lists with `Map.set` semantics (update in place, else append); JavaScript
object merging via `Object.assign` is embedded by `jsAssign`, and the fact
that `Object.assign` mutates its first argument is reflected by reusing the
merged list wherever the code reads the mutated object afterwards.
-/

/-- Three-part version number, as produced by `parseVersion` (modelled from the
spec: `VersionModel` parses `major.minor.patch`; total order is lexicographic).
`string` in the source (`IVersion.string`) is recovered by `versionToString`. -/
structure Version where
  major : Nat
  minor : Nat
  patch : Nat
deriving DecidableEq, Repr

/-- Canonical string form of a version (the `IVersion.string` field). -/
def versionToString (v : Version) : String :=
  toString v.major ++ "." ++ toString v.minor ++ "." ++ toString v.patch

/-- Modelled from the spec: lexicographic strict order on versions
(`VersionModel`: "Total order by lexicographic (major, minor, patch)
comparison"); the comparison functions live in the missing `util/elmUtils.ts`. -/
def versionLt (a b : Version) : Bool :=
  decide (a.major < b.major ∨
    (a.major = b.major ∧ (a.minor < b.minor ∨
      (a.minor = b.minor ∧ a.patch < b.patch))))

/-- Non-strict version order. -/
def versionLe (a b : Version) : Bool :=
  decide (a = b) || versionLt a b

/-- A constraint bound operator, `<` or `<=` (the `lowerOperator` /
`upperOperator` fields of `IConstraint`). -/
inductive BoundOp where
  | lt
  | le
deriving DecidableEq, Repr

/-- A version range constraint `lower lowerOp v upperOp upper`
(the `IConstraint` record of the source). -/
structure Constraint where
  lower : Version
  lowerOp : BoundOp
  upperOp : BoundOp
  upper : Version
deriving DecidableEq, Repr

/-- `boundHolds op a b` is `a < b` or `a <= b` according to `op`. -/
def boundHolds (op : BoundOp) (a b : Version) : Bool :=
  match op with
  | .lt => versionLt a b
  | .le => versionLe a b

/-- Modelled from the spec: "A Version satisfies a Constraint iff it is within
both bounds per their operators" (the satisfaction check of the missing
`util/elmUtils.ts`). -/
def satisfiesConstraint (v : Version) (c : Constraint) : Bool :=
  boundHolds c.lowerOp c.lower v && boundHolds c.upperOp v c.upper

/-- The stricter of two lower bounds: the greater version wins; on a tie a
strict operator wins.  Part of the constraint intersection modelled from the
spec ("intersecting with any existing constraint on the same name"). -/
def stricterLower (p q : Version × BoundOp) : Version × BoundOp :=
  if versionLt p.1 q.1 then q
  else if versionLt q.1 p.1 then p
  else (p.1, if p.2 = BoundOp.le ∧ q.2 = BoundOp.le then BoundOp.le else BoundOp.lt)

/-- The stricter of two upper bounds: the smaller version wins; on a tie a
strict operator wins. -/
def stricterUpper (p q : Version × BoundOp) : Version × BoundOp :=
  if versionLt q.1 p.1 then q
  else if versionLt p.1 q.1 then p
  else (p.1, if p.2 = BoundOp.le ∧ q.2 = BoundOp.le then BoundOp.le else BoundOp.lt)

/-- Modelled from the spec: intersection of two range constraints, taking the
stricter bound on each side. -/
def intersectConstraint (a b : Constraint) : Constraint :=
  let l := stricterLower (a.lower, a.lowerOp) (b.lower, b.lowerOp)
  let u := stricterUpper (a.upper, a.upperOp) (b.upper, b.upperOp)
  { lower := l.1, lowerOp := l.2, upperOp := u.2, upper := u.1 }

/-- Modelled from the spec: syntactic non-emptiness of a range constraint
("if the intersection is empty, this candidate is rejected"). -/
def constraintCanHold (c : Constraint) : Bool :=
  versionLt c.lower c.upper ||
    (decide (c.lower = c.upper) && decide (c.lowerOp = BoundOp.le)
      && decide (c.upperOp = BoundOp.le))

/-- Association-list lookup with string keys; embeds both JavaScript `Map.get`
and JavaScript object property access used throughout the workspace code. -/
def lookupKey {α : Type} (k : String) : List (String × α) → Option α
  | [] => none
  | (k', v) :: rest => if k = k' then some v else lookupKey k rest

/-- Association-list insertion with JavaScript `Map.set` / property-assignment
semantics: an existing key is updated in place, a new key is appended. -/
def setKey {α : Type} (k : String) (v : α) : List (String × α) → List (String × α)
  | [] => [(k, v)]
  | (k', v') :: rest => if k = k' then (k, v) :: rest else (k', v') :: setKey k v rest

/-- `Object.assign(target, source)`: every entry of `source` is written into
`target` with property-assignment semantics.  `Object.assign` mutates (and
returns) its first argument; call sites of the embedding reuse the result
wherever the TypeScript code reads the mutated object afterwards. -/
def jsAssign {α : Type} (target source : List (String × α)) : List (String × α) :=
  source.foldl (fun t kv => setKey kv.1 kv.2 t) target

/-- A version of a package in the local package store together with its own
declared dependency constraints (the `IPackage` record filled in by
`ElmPackageCache.get` from each version folder's `elm.json`). -/
structure IPackage where
  version : Version
  dependencies : List (String × Constraint)
deriving DecidableEq, Repr

/-- The local package store as the solver sees it through `ElmPackageCache`:
for each package name, the list of available versions with their declared
constraints (unsorted, as returned by `ElmPackageCache.get`). -/
def SolverStore : Type := List (String × List IPackage)

/-- All store versions of a package name (empty when the name is unknown). -/
def storeGet (store : SolverStore) (name : String) : List IPackage :=
  (lookupKey name store).getD []

/-- Whether `v` is one of the versions available for `name` in the store. -/
def versionInStore (store : SolverStore) (name : String) (v : Version) : Bool :=
  (storeGet store name).any (fun p => p.version == v)

/-- Insertion step of the descending-by-version candidate sort. -/
def insertDesc (p : IPackage) : List IPackage → List IPackage
  | [] => [p]
  | q :: qs => if versionLt q.version p.version then p :: q :: qs else q :: insertDesc p qs

/-- Modelled from the spec: "sort candidates descending by Version"
(DependencyResolver step 2). -/
def sortDesc : List IPackage → List IPackage
  | [] => []
  | p :: ps => insertDesc p (sortDesc ps)

/-- Modelled from the spec: merge a candidate's declared dependency constraints
into the frontier, "intersecting with any existing constraint on the same name
— if the intersection is empty, this candidate is rejected" (DependencyResolver
step 3). -/
def combineDeps (deps : List (String × Constraint)) :
    List (String × Constraint) → Option (List (String × Constraint))
  | [] => some deps
  | (n, c) :: rest =>
    match lookupKey n deps with
    | some c0 =>
      let i := intersectConstraint c0 c
      if constraintCanHold i then combineDeps (setKey n i deps) rest else none
    | none => combineDeps (setKey n c deps) rest

/-- Modelled from the spec: the first package of the frontier without an
assignment (DependencyResolver steps 1-2, frontier in insertion order). -/
def pickUnresolved (deps : List (String × Constraint))
    (sols : List (String × Version)) : Option (String × Constraint) :=
  match deps with
  | [] => none
  | (n, c) :: rest =>
    if (lookupKey n sols).isSome then pickUnresolved rest sols else some (n, c)

/-- Modelled from the spec: try the candidate versions of the picked package
greatest-first; a candidate whose constraints either make some intersection
empty or lead the recursion to failure is rejected and the next-lower candidate
is tried (DependencyResolver steps 3-5).  `recur` is the recursive re-entry
into the solver at the remaining fuel. -/
def tryCandsWith
    (recur : List (String × Constraint) → List (String × Version) →
      Option (List (String × Version)))
    (name : String) :
    List IPackage → List (String × Constraint) → List (String × Version) →
      Option (List (String × Version))
  | [], _, _ => none
  | p :: ps, deps, sols =>
    match combineDeps deps p.dependencies with
    | none => tryCandsWith recur name ps deps sols
    | some deps' =>
      match recur deps' (setKey name p.version sols) with
      | some r => some r
      | none => tryCandsWith recur name ps deps sols

/-- Modelled from the spec: the depth-first, backtracking,
greatest-version-first dependency solver (DependencyResolver §4.3; the
function `solveDependencies` of the missing `util/elmUtils.ts`).  The
TypeScript recursion carries no explicit bound; `fuel` bounds the recursion
depth of the embedding. -/
def solveWorker : Nat → SolverStore → List (String × Constraint) →
    List (String × Version) → Option (List (String × Version))
  | 0, _, _, _ => none
  | fuel + 1, store, deps, sols =>
    match pickUnresolved deps sols with
    | none => some sols
    | some (name, c) =>
      let cands := sortDesc
        ((storeGet store name).filter (fun p => satisfiesConstraint p.version c))
      tryCandsWith (fun d s => solveWorker fuel store d s) name cands deps sols

/-- Modelled from the spec: entry point of the solver, starting from the root's
combined constraint map with an empty assignment; `none` reports
unsatisfiability. -/
def solveDependencies (fuel : Nat) (store : SolverStore)
    (deps : List (String × Constraint)) : Option (List (String × Version)) :=
  solveWorker fuel store deps []

/-- A PER-NAME satisfying assignment for a root constraint map: every name the
map constrains is assigned a store-available version satisfying that root
constraint.  This deliberately counts only the root's own constraints, not the
constraints declared by chosen packages' manifests; the full solver-problem
satisfiability over the store is `TransSatAssign`. -/
def SatAssign (store : SolverStore) (deps0 : List (String × Constraint))
    (m : List (String × Version)) : Prop :=
  ∀ n c, lookupKey n deps0 = some c →
    ∃ v, lookupKey n m = some v ∧ versionInStore store n v = true ∧
      satisfiesConstraint v c = true

/-- Satisfiability of the FULL solver problem over the local package store, as
the spec's resolver-correctness property words it: a per-name root-satisfying
assignment in which, additionally, every version assigned to a name satisfies
every constraint declared against that name by the store manifest of any OTHER
package version chosen in the assignment.  Unsatisfiability of a root
constraint map over the store in the transitive sense is the non-existence of
such an assignment. -/
def TransSatAssign (store : SolverStore) (deps0 : List (String × Constraint))
    (m : List (String × Version)) : Prop :=
  SatAssign store deps0 m ∧
  ∀ n' v' p n v c, lookupKey n' m = some v' → p ∈ storeGet store n' →
    p.version = v' → n' ≠ n → lookupKey n p.dependencies = some c →
    lookupKey n m = some v → satisfiesConstraint v c = true

/-- The frontier `deps` refines the initial constraint map `deps0`: every
initially constrained name is still present and its current constraint is at
least as strict (constraints are only ever intersected). -/
def DepsRefines (deps0 deps : List (String × Constraint)) : Prop :=
  ∀ n c0, lookupKey n deps0 = some c0 →
    ∃ c, lookupKey n deps = some c ∧
      ∀ v, satisfiesConstraint v c = true → satisfiesConstraint v c0 = true

/-- Every version assigned so far is available in the store and satisfies the
initial constraint on its name (when there is one). -/
def SolsOk (store : SolverStore) (deps0 : List (String × Constraint))
    (sols : List (String × Version)) : Prop :=
  ∀ n v, lookupKey n sols = some v →
    versionInStore store n v = true ∧
      ∀ c0, lookupKey n deps0 = some c0 → satisfiesConstraint v c0 = true

/-- The discriminant of a project (`type` field of the manifest / project). -/
inductive ProjectKind where
  | application
  | package
deriving DecidableEq, Repr

/-- The `ElmProject` entity built by the loader (`IElmProject` /
`IElmApplication` / `IElmPackage` in the source): dependency maps hold fully
loaded sub-projects; `exposedModules` is only meaningful for packages and
`testDependencies` only for the root. -/
inductive Project where
  | mk (kind : ProjectKind) (uri : String)
       (sourceDirectories testDirectories : List String)
       (dependencies testDependencies : List (String × Project))
       (exposedModules : List String)
       (moduleToUriMap : List (String × String))

def Project.kind : Project → ProjectKind
  | .mk k _ _ _ _ _ _ _ => k

def Project.uri : Project → String
  | .mk _ u _ _ _ _ _ _ => u

def Project.sourceDirectories : Project → List String
  | .mk _ _ sd _ _ _ _ _ => sd

def Project.testDirectories : Project → List String
  | .mk _ _ _ td _ _ _ _ => td

def Project.dependencies : Project → List (String × Project)
  | .mk _ _ _ _ d _ _ _ => d

def Project.testDependencies : Project → List (String × Project)
  | .mk _ _ _ _ _ td _ _ => td

def Project.exposedModules : Project → List String
  | .mk _ _ _ _ _ _ em _ => em

def Project.moduleToUriMap : Project → List (String × String)
  | .mk _ _ _ _ _ _ _ m => m

/-- The `exposed-modules` manifest field: either a flat array or a map of
group-name to array (`string[] | { [name: string]: string[] }`). -/
inductive ExposedModules where
  | flat (modules : List String)
  | grouped (groups : List (String × List String))
deriving DecidableEq, Repr

/-- `flatternExposedModules` of the source (sic): a flat list is returned
as-is, a grouped map is concatenated with
`Object.values(exposedModules).reduce((a, b) => a.concat(b), [])`. -/
def flatternExposedModules : ExposedModules → List String
  | .flat modules => modules
  | .grouped groups => (groups.map Prod.snd).foldl (fun a b => a ++ b) []

/-- A parsed package `elm.json` (`IElmPackageJson`); version strings are
already parsed (the string parsing lives in the missing `util/elmUtils.ts`). -/
structure PackageJson where
  name : String
  version : Version
  exposedModules : ExposedModules
  dependencies : List (String × Constraint)
  testDependencies : List (String × Constraint)

/-- A parsed application `elm.json` (`IElmApplicationJson`); the four
dependency groups are maps of package name to an exact pinned version. -/
structure ApplicationJson where
  sourceDirectories : List String
  depsDirect : List (String × Version)
  depsIndirect : List (String × Version)
  testDepsDirect : List (String × Version)
  testDepsIndirect : List (String × Version)

/-- A parsed root `elm.json`, discriminated by the `type` field. -/
inductive ElmJson where
  | application (a : ApplicationJson)
  | package (p : PackageJson)

/-- Errors thrown during workspace loading.  `fileNotFound` is a file-system
read failure of `loadElmJson`; `unsolvableConstraints` carries the user-visible
message shown by `connection.window.showErrorMessage` before
`loadRootProject` throws `Unsolvable package constraints`;
`missingPackageVersion` is the `Problem getting package version` throw of
`loadPackage`; `outOfFuel` marks exhaustion of the recursion bound of the
embedding (the TypeScript recursion is unbounded). -/
inductive LoadError where
  | fileNotFound (path : String)
  | unsolvableConstraints (userMessage : String)
  | missingPackageVersion (packageName : String)
  | outOfFuel
deriving DecidableEq, Repr

/-- Whether an error is a plain file-not-found file-system error. -/
def isFileNotFoundError : LoadError → Bool
  | .fileNotFound _ => true
  | _ => false

/-- The user-visible message shown when the solver reports unsatisfiability
(`initWorkspace` / `loadRootProject` of the source). -/
def elmJsonProblemMessage : String :=
  "There is a problem with elm.json. Could not solve dependencies with the given constraints. Try running `elm make` to install missing dependencies."

/-- The package store as the loader sees it through `loadElmJson`: the
manifest of each `maintainer/name/version/elm.json` under the packages root.
Modelled from the spec: the file-system layout is elided and manifests are
keyed directly by package name and version. -/
def LoaderStore : Type := List ((String × Version) × PackageJson)

/-- Read the manifest of one exact package version (`loadElmJson` on
`pathToPackageWithVersion/elm.json`); `none` is a file-system miss. -/
def readPackageManifest (lstore : LoaderStore) (packageName : String)
    (v : Version) : Option PackageJson :=
  match lstore with
  | [] => none
  | (k, j) :: rest =>
    if k.1 = packageName ∧ k.2 = v then some j
    else readPackageManifest rest packageName v

/-- `packageName.substring(0, packageName.indexOf("/"))` and the rest: the
maintainer and bare name parts of `maintainer/name`. -/
def splitPackageName (packageName : String) : String × String :=
  match packageName.data.findIdx? (fun c => c == '/') with
  | none => ("", packageName)
  | some i => (String.mk (packageName.data.take i), String.mk (packageName.data.drop (i + 1)))

/-- `${packagesRoot}${maintainer}/${name}/${version.string}` of `loadPackage`. -/
def pathToPackageWithVersion (packagesRoot packageName : String) (v : Version) : String :=
  packagesRoot ++ (splitPackageName packageName).1 ++ "/" ++
    (splitPackageName packageName).2 ++ "/" ++ versionToString v

/-- The resolved-package cache key `${packageName}@${version.string}`. -/
def mkCacheKey (packageName : String) (v : Version) : String :=
  packageName ++ "@" ++ versionToString v

/-- The shared resolved-package cache (`resolvedPackageCache` field), keyed by
`name@version`. -/
def PkgCache : Type := List (String × Project)

/-- `loadDependencyMap` of the source, parameterised by the package-loading
function so that the fuel-indexed recursion of `loadPackage` stays structural:
`for (const dep in deps) dependencyMap.set(dep, await loadPackage(dep,
packageVersions))`, threading the shared resolved-package cache and collecting
the cache keys of the expensive (non-cache-hit) loads performed. -/
def loadDepsWithAux {α : Type}
    (load : String → List (String × Version) → PkgCache →
      Except LoadError (Project × PkgCache × List String))
    (versions : List (String × Version)) :
    List (String × α) → PkgCache → List (String × Project) → List String →
      Except LoadError (List (String × Project) × PkgCache × List String)
  | [], cache, dm, log => .ok (dm, cache, log)
  | (dep, _) :: rest, cache, dm, log =>
    match load dep versions cache with
    | .error e => .error e
    | .ok (proj, cache1, log1) =>
      loadDepsWithAux load versions rest cache1 (setKey dep proj dm) (log ++ log1)

/-- Entry point of `loadDependencyMap` (empty accumulators). -/
def loadDepsWith {α : Type}
    (load : String → List (String × Version) → PkgCache →
      Except LoadError (Project × PkgCache × List String))
    (deps : List (String × α)) (versions : List (String × Version))
    (cache : PkgCache) :
    Except LoadError (List (String × Project) × PkgCache × List String) :=
  loadDepsWithAux load versions deps cache [] []

/-- `loadPackage` of the source: look up the pinned/solved version of the
package name, return the cached Project when the `name@version` key is in the
shared resolved-package cache, otherwise read that version's manifest,
recursively load its (non-test) dependencies against the same version map,
flatten its exposed modules, store the result under the cache key and return
it.  The third result component records the cache keys for which this call
performed the expensive load (manifest read plus recursive dependency
loading); a cache hit performs none.  `fuel` bounds the recursion depth of the
embedding. -/
def loadPackage (lstore : LoaderStore) (packagesRoot : String) :
    Nat → String → List (String × Version) → PkgCache →
      Except LoadError (Project × PkgCache × List String)
  | 0, _, _, _ => .error .outOfFuel
  | fuel + 1, packageName, packageVersions, cache =>
    match lookupKey packageName packageVersions with
    | none => .error (.missingPackageVersion packageName)
    | some version =>
      let cacheKey := mkCacheKey packageName version
      match lookupKey cacheKey cache with
      | some cached => .ok (cached, cache, [])
      | none =>
        let pkgPath := pathToPackageWithVersion packagesRoot packageName version
        match readPackageManifest lstore packageName version with
        | none => .error (.fileNotFound (pkgPath ++ "/elm.json"))
        | some elmJson =>
          match loadDepsWith
              (fun n vm c => loadPackage lstore packagesRoot fuel n vm c)
              elmJson.dependencies packageVersions cache with
          | .error e => .error e
          | .ok (depMap, cache1, log1) =>
            let resolvedPackage : Project := .mk .package pkgPath
              [pkgPath ++ "/src"] [pkgPath ++ "/tests"]
              depMap [] (flatternExposedModules elmJson.exposedModules) []
            .ok (resolvedPackage, setKey cacheKey resolvedPackage cache1,
              log1 ++ [cacheKey])

/-- `loadRootProject` of the source.  For an application manifest the four
dependency groups are merged with `Object.assign(elmJson.dependencies.direct,
…)`; since `Object.assign` mutates its first argument, the merged map is also
what the subsequent `loadDependencyMap(elmJson.dependencies.direct, …)` call
iterates over.  For a package manifest, `Object.assign(elmJson.dependencies,
elmJson["test-dependencies"])` likewise leaves the merged map in
`elmJson.dependencies`; the solver runs over that merged map and a `none`
result shows the user-visible message and throws. -/
def loadRootProject (fuel : Nat) (sstore : SolverStore) (lstore : LoaderStore)
    (packagesRoot rootPath rootUri : String) (elmJson : ElmJson) :
    Except LoadError Project :=
  match elmJson with
  | .application a =>
    let mergedDirect :=
      jsAssign (jsAssign (jsAssign a.depsDirect a.depsIndirect) a.testDepsDirect)
        a.testDepsIndirect
    let allDependencies := mergedDirect
    match loadDepsWith (fun n vm c => loadPackage lstore packagesRoot fuel n vm c)
        mergedDirect allDependencies [] with
    | .error e => .error e
    | .ok (depMap, cache1, _) =>
      match loadDepsWith (fun n vm c => loadPackage lstore packagesRoot fuel n vm c)
          a.testDepsDirect allDependencies cache1 with
      | .error e => .error e
      | .ok (testDepMap, _, _) =>
        .ok (.mk .application rootUri
          (a.sourceDirectories.map (fun folder => rootPath ++ "/" ++ folder))
          [rootPath ++ "/tests"] depMap testDepMap [] [])
  | .package pj =>
    let deps := jsAssign pj.dependencies pj.testDependencies
    match solveDependencies fuel sstore deps with
    | none => .error (.unsolvableConstraints elmJsonProblemMessage)
    | some solvedVersions =>
      match loadDepsWith (fun n vm c => loadPackage lstore packagesRoot fuel n vm c)
          deps solvedVersions [] with
      | .error e => .error e
      | .ok (depMap, cache1, _) =>
        match loadDepsWith (fun n vm c => loadPackage lstore packagesRoot fuel n vm c)
            pj.testDependencies solvedVersions cache1 with
        | .error e => .error e
        | .ok (testDepMap, _, _) =>
          .ok (.mk .package rootUri [rootPath ++ "/src"] [rootPath ++ "/tests"]
            depMap testDepMap (flatternExposedModules pj.exposedModules) [])

/-- Key-presence monotonicity between two states of the resolved-package
cache: every `name@version` key present before is still present after. -/
def cachePreserves (c c' : PkgCache) : Prop :=
  ∀ k, (lookupKey k c).isSome = true → (lookupKey k c').isSome = true

/-- The inner copy loop of `findExposedModulesOfDependencies`: for one
dependency, every entry of its module table whose module name is in its
exposed-module set is copied into the consuming project's table
(`if (dep.exposedModules.has(module)) project.moduleToUriMap.set(module, uri)`). -/
def copyExposedEntries (exposed : List String) (entries table : List (String × String)) :
    List (String × String) :=
  entries.foldl
    (fun t mu => if exposed.contains mu.1 then setKey mu.1 mu.2 t else t) table

/-- The outer loop of `loadForDependencies`: process each dependency of the
map in order, copying its exposed entries into the consuming project's table. -/
def copyFromDeps (deps : List (String × Project)) (table : List (String × String)) :
    List (String × String) :=
  deps.foldl
    (fun t nd => copyExposedEntries nd.2.exposedModules nd.2.moduleToUriMap t) table

/-- `findExposedModulesOfDependencies` of the source, on the project tree: for
each dependency, copy its exposed entries into this project's module table and
recurse into the dependency; for the root project the same is then done for
the test dependencies.  The per-dependency copy reads the dependency's table
before the recursion into it updates that table, which on the tree embedding
is the dependency's original table.  `fuel` bounds the recursion depth of the
embedding (the TypeScript recursion is structural on the finite loaded
project graph). -/
def findExposedModulesOfDependencies : Nat → Bool → Project → Project
  | 0, _, p => p
  | fuel + 1, isRoot, .mk k u sd td deps tdeps em tbl =>
    let tbl1 := copyFromDeps deps tbl
    let tbl2 := if isRoot then copyFromDeps tdeps tbl1 else tbl1
    .mk k u sd td
      (deps.map (fun nd => (nd.1, findExposedModulesOfDependencies fuel false nd.2)))
      (if isRoot then
        tdeps.map (fun nd => (nd.1, findExposedModulesOfDependencies fuel false nd.2))
       else tdeps)
      em tbl2

/-- The characters of the `.elm` extension. -/
def elmPatChars : List Char := ['.', 'e', 'l', 'm']

/-- Whether `pat` is an initial segment of `l` (character-wise). -/
def startsWithList : List Char → List Char → Bool
  | [], _ => true
  | _ :: _, [] => false
  | c :: cs, d :: ds => decide (c = d) && startsWithList cs ds

/-- JavaScript `String.prototype.replace` with a string pattern: only the
FIRST occurrence of `pat` is replaced by `rep`; the string is returned
unchanged when the pattern does not occur. -/
def replaceFirstList (pat rep : List Char) : List Char → List Char
  | [] => []
  | c :: cs =>
    if startsWithList pat (c :: cs) then rep ++ (c :: cs).drop pat.length
    else c :: replaceFirstList pat rep cs

/-- Index of the first occurrence of `pat`, when there is one. -/
def firstOccIdx (pat : List Char) : List Char → Option Nat
  | [] => none
  | c :: cs =>
    if startsWithList pat (c :: cs) then some 0
    else (firstOccIdx pat cs).map (· + 1)

/-- JavaScript `String.prototype.split` on `'/'` (non-empty separator,
character-level). -/
def splitOnSlashAux (acc : List Char) : List Char → List (List Char)
  | [] => [acc.reverse]
  | c :: cs =>
    if c = '/' then acc.reverse :: splitOnSlashAux [] cs
    else splitOnSlashAux (c :: acc) cs

/-- `path.split("/")`. -/
def splitOnSlash (l : List Char) : List (List Char) :=
  splitOnSlashAux [] l

/-- JavaScript `Array.prototype.join(".")`. -/
def joinDotChars : List (List Char) → List Char
  | [] => []
  | [x] => x
  | x :: xs => x ++ '.' :: joinDotChars xs

/-- Modelled from the spec: `path.relative(sourceDir, matchingPath)` of the
missing `util/path.ts`, for an already-normalized matching path below the
source directory: the `sourceDir ++ "/"` prefix is stripped. -/
def relativeChars (dir p : List Char) : List Char :=
  if startsWithList (dir ++ ['/']) p then p.drop (dir.length + 1) else p

/-- The module-name derivation of `findElmFilesInProjectWorker`:
`path.relative(sourceDir, matchingPath).replace(".elm", "").split("/").join(".")`. -/
def moduleNameOf (sourceDir matchingPath : String) : String :=
  String.mk (joinDotChars (splitOnSlash
    (replaceFirstList elmPatChars [] (relativeChars sourceDir.data matchingPath.data))))

/-- The module name as the specification words it: "derive each file's module
name from its path relative to that source directory (path separators become
`.` separators, extension stripped)" — the TRAILING `.elm` extension is
removed and nothing else in the path is altered.  This definition follows the
spec's words and is compared against the source's `moduleNameOf`. -/
def moduleNameSpecOf (sourceDir matchingPath : String) : String :=
  let rel := relativeChars sourceDir.data matchingPath.data
  let stripped := if rel.drop (rel.length - 4) = elmPatChars
    then rel.take (rel.length - 4) else rel
  String.mk (joinDotChars (splitOnSlash stripped))

/-- `findElmFilesInProjectWorker` of the source, restricted to its
module-table effect: for every matching path below the source directory the
derived module name is recorded in the project's module-name-to-URI table
(the URI conversion `URI.file(matchingPath).toString()` is elided and the
path itself is stored). -/
def findElmFilesInProjectWorker (sourceDir : String)
    (table : List (String × String)) (paths : List String) :
    List (String × String) :=
  paths.foldl (fun t p => setKey (moduleNameOf sourceDir p) p t) table

/-- The mutable state of one `ElmWorkspace` instance relevant to dirty
tracking: the dirty flag (initialized to `true`), the lazily created type
checker instance (abstracted to `Option Unit`), the type cache and the
semantic diagnostics cache (entries abstracted to opaque values; the engine
only clears them). -/
structure WorkspaceState where
  dirty : Bool
  typeChecker : Option Unit
  typeCache : List (String × Nat)
  diagnosticsCache : List (String × List Nat)
deriving DecidableEq, Repr

/-- `markAsDirty` of the source: only on the clean-to-dirty transition the
flag is set, the type checker instance dropped and the diagnostics cache
cleared; a call while already dirty does nothing. -/
def markAsDirty (s : WorkspaceState) : WorkspaceState :=
  if s.dirty then s
  else { s with dirty := true, typeChecker := none, diagnosticsCache := [] }

/-- `getForest(synchronize)` of the source, restricted to its state effect:
when dirty and synchronization is requested, `forest.synchronize()` runs and
the flag is cleared; otherwise the state is untouched. -/
def getForestStep (synchronize : Bool) (s : WorkspaceState) : WorkspaceState :=
  if s.dirty && synchronize then { s with dirty := false } else s

/-- `getTypeChecker` of the source, restricted to its state effect: when
dirty, the forest is synchronized and the flag cleared; a missing type
checker instance is then created. -/
def getTypeCheckerStep (s : WorkspaceState) : WorkspaceState :=
  let s1 := if s.dirty then { s with dirty := false } else s
  match s1.typeChecker with
  | some _ => s1
  | none => { s1 with typeChecker := some () }

/-- `getSemanticDiagnostics` of the source, restricted to its state effect:
a cache hit returns the cached entry unchanged; on a miss the type checker is
obtained (clearing the dirty flag), the diagnostics are computed (`computed`
stands for the result of `getTypeChecker().getDiagnostics(sourceFile)`) and
inserted into the cache under the file's URI. -/
def getSemanticDiagnosticsStep (uri : String) (computed : List Nat)
    (s : WorkspaceState) : WorkspaceState :=
  match lookupKey uri s.diagnosticsCache with
  | some _ => s
  | none =>
    let s1 := getTypeCheckerStep s
    { s1 with diagnosticsCache := setKey uri computed s1.diagnosticsCache }

/-- One public workspace operation touching the dirty flag or the caches. -/
inductive WorkspaceOp where
  | markDirty
  | getForest (synchronize : Bool)
  | getChecker
  | getDiagnostics (uri : String) (computed : List Nat)

/-- Apply one workspace operation. -/
def stepWorkspace (s : WorkspaceState) : WorkspaceOp → WorkspaceState
  | .markDirty => markAsDirty s
  | .getForest synchronize => getForestStep synchronize s
  | .getChecker => getTypeCheckerStep s
  | .getDiagnostics uri computed => getSemanticDiagnosticsStep uri computed s

/-- Run a sequence of workspace operations. -/
def runWorkspace (s : WorkspaceState) : List WorkspaceOp → WorkspaceState
  | [] => s
  | op :: ops => runWorkspace (stepWorkspace s op) ops

/-- The state of a freshly constructed `ElmWorkspace`: `private dirty = true`,
no type checker instance, empty caches. -/
def initialWorkspaceState : WorkspaceState :=
  { dirty := true, typeChecker := none, typeCache := [], diagnosticsCache := [] }

/-- The dirty-cache invariant: whenever the dirty flag is set, the semantic
diagnostics cache is empty. -/
def DirtyCacheInvariant (s : WorkspaceState) : Prop :=
  s.dirty = true → s.diagnosticsCache = []

/-- State accumulated while populating the forest at initialization: the
forest entries keyed by URI (trees abstracted to opaque values) and the
console error log. -/
structure InitAcc where
  forest : List (String × Nat)
  errLog : List String
deriving DecidableEq, Repr

/-- `readAndAddToForest` of the source: read and parse one file inside a
`try`; on success the tree is upserted into the forest under the file's URI
(`Forest.setTree`, modelled from the spec: "upserts a SourceFile entry"; the
URI conversion is elided and the path is used as key); on failure the error
is logged on the console and nothing is added — the failure never escapes. -/
def readAndAddToForest (readParse : String → Except String Nat)
    (acc : InitAcc) (p : String) : InitAcc :=
  match readParse p with
  | .ok tree => { acc with forest := setKey p tree acc.forest }
  | .error e => { acc with errLog := acc.errLog ++ [e] }

/-- The bulk population loop of `initWorkspace`: every discovered file is read
and added to the forest (the `Promise.all` fan-out writes disjoint entries;
the embedding sequences the batch). -/
def addAllToForest (readParse : String → Except String Nat)
    (acc : InitAcc) (files : List String) : InitAcc :=
  files.foldl (readAndAddToForest readParse) acc

/-- The transitive-soundness property as the specification claims it for a
solver result: every assigned version satisfies every constraint declared
against its name by the root constraint map or by the store manifest of any
OTHER package version chosen in the result. -/
def resolvedSound (store : SolverStore) (rootDeps : List (String × Constraint))
    (m : List (String × Version)) : Bool :=
  m.all fun nv =>
    (match lookupKey nv.1 rootDeps with
     | some c => satisfiesConstraint nv.2 c
     | none => true) &&
    m.all fun nv' =>
      decide (nv'.1 = nv.1) ||
      ((storeGet store nv'.1).filter (fun p => p.version == nv'.2)).all fun p =>
        match lookupKey nv.1 p.dependencies with
        | some c => satisfiesConstraint nv.2 c
        | none => true

def v100 : Version := ⟨1, 0, 0⟩

def v200 : Version := ⟨2, 0, 0⟩

def v300 : Version := ⟨3, 0, 0⟩

/-- The range `1.0.0 <= v < 3.0.0`. -/
def range13 : Constraint := ⟨v100, .le, .lt, v300⟩

/-- The range `1.0.0 <= v < 2.0.0`. -/
def range12 : Constraint := ⟨v100, .le, .lt, v200⟩

/-- The range `2.0.0 <= v < 3.0.0`. -/
def range23 : Constraint := ⟨v200, .le, .lt, v300⟩

/-- Store for the C1 counterexample: `elm/c` has versions 2.0.0 and 1.0.0
(no dependencies); `elm/b` has version 1.0.0 requiring `elm/c` in
`[1.0.0, 2.0.0)`. -/
def exampleStoreA : SolverStore :=
  [("elm/c", [⟨v200, []⟩, ⟨v100, []⟩]),
   ("elm/b", [⟨v100, [("elm/c", range12)]⟩])]

/-- Root constraints for the C1 counterexample: `elm/c` in `[1.0.0, 3.0.0)`
listed before `elm/b` in `[1.0.0, 2.0.0)`. -/
def exampleRootA : List (String × Constraint) :=
  [("elm/c", range13), ("elm/b", range12)]

/-- The assignment the solver returns on `exampleStoreA` / `exampleRootA`. -/
def exampleResultA : List (String × Version) :=
  [("elm/c", v200), ("elm/b", v100)]

/-- Solver store for the C4 witness: `elm/a` exists only at version 1.0.0. -/
def unsatStore : SolverStore :=
  [("elm/a", [⟨v100, []⟩])]

/-- Package-kind root manifest for the C4 witness: requires `elm/a` in
`[2.0.0, 3.0.0)`, which no store version satisfies. -/
def unsatPkgJson : PackageJson :=
  { name := "author/root", version := v100, exposedModules := .flat ["Main"],
    dependencies := [("elm/a", range23)], testDependencies := [] }

/-- Manifest of the dependency package `a/x@1.0.0` (no dependencies). -/
def pkgJsonX : PackageJson :=
  { name := "a/x", version := v100, exposedModules := .flat ["X"],
    dependencies := [], testDependencies := [] }

/-- Manifest of the dependency package `a/y@1.0.0` (no dependencies). -/
def pkgJsonY : PackageJson :=
  { name := "a/y", version := v100, exposedModules := .flat ["Y"],
    dependencies := [], testDependencies := [] }

/-- Loader store with the two dependency packages `a/x` and `a/y` at 1.0.0. -/
def loaderStoreXY : LoaderStore :=
  [(("a/x", v100), pkgJsonX), (("a/y", v100), pkgJsonY)]

/-- Application-kind root manifest for the C6 counterexample: one direct
dependency `a/x` and one INDIRECT dependency `a/y`. -/
def appJsonXY : ApplicationJson :=
  { sourceDirectories := ["src"],
    depsDirect := [("a/x", v100)],
    depsIndirect := [("a/y", v100)],
    testDepsDirect := [],
    testDepsIndirect := [] }

/-- The version map pinning `a/x` to 1.0.0 (C3 witness). -/
def vmapX : List (String × Version) := [("a/x", v100)]

/-- The project `loadPackage` builds for `a/x@1.0.0` from `loaderStoreXY`
with packages root `pkgs/`. -/
def projX : Project :=
  .mk .package "pkgs/a/x/1.0.0" ["pkgs/a/x/1.0.0/src"] ["pkgs/a/x/1.0.0/tests"]
    [] [] ["X"] []

/-- Dependency package for the C2 witness: exposes `M` but not `Hidden`,
with both in its module table. -/
def depD : Project :=
  .mk .package "file:///dep" [] [] [] [] ["M"]
    [("M", "file:///dep/src/M.elm"), ("Hidden", "file:///dep/src/Hidden.elm")]

/-- Root project for the C2 witness, with `depD` as its only dependency. -/
def rootW : Project :=
  .mk .application "file:///root" [] [] [("a/d", depD)] [] [] []

/-- A clean workspace state with a non-empty type cache and a cached
diagnostics entry (C5 counterexample / C7 witness). -/
def cleanStateW : WorkspaceState :=
  { dirty := false, typeChecker := some (),
    typeCache := [("expr", 7)], diagnosticsCache := [("file:///a.elm", [1, 2])] }

/-- Read-and-parse function for the C8 witness: reading `B` fails, every
other path parses to tree 7. -/
def readParseW : String → Except String Nat :=
  fun p => if p = "B" then .error "boom" else .ok 7

/-- The project `loadPackage` builds for `a/y@1.0.0` from `loaderStoreXY`
with packages root `pkgs/`. -/
def projY : Project :=
  .mk .package "pkgs/a/y/1.0.0" ["pkgs/a/y/1.0.0/src"] ["pkgs/a/y/1.0.0/tests"]
    [] [] ["Y"] []

/-- The root project `loadRootProject` builds for `appJsonXY`: its
`dependencies` map holds BOTH the direct `a/x` and the indirect `a/y`. -/
def appProjXY : Project :=
  .mk .application "file:///root" ["/root/src"] ["/root/tests"]
    [("a/x", projX), ("a/y", projY)] [] [] []

/-- Solver store for the C4 counterexample: `elm/c` exists only at 2.0.0 (no
dependencies); `elm/b` exists only at 1.0.0 and declares `elm/c` in
`[1.0.0, 2.0.0)`. -/
def transStore : SolverStore :=
  [("elm/c", [⟨v200, []⟩]), ("elm/b", [⟨v100, [("elm/c", range12)]⟩])]

/-- Package-kind root manifest for the C4 counterexample: requires `elm/c` in
`[1.0.0, 3.0.0)` (listed first) and `elm/b` in `[1.0.0, 2.0.0)`.  Together
with `transStore` this is transitively unsatisfiable: any root-satisfying
assignment must pick `elm/c@2.0.0` and `elm/b@1.0.0`, and `elm/b@1.0.0`
declares `elm/c` in `[1.0.0, 2.0.0)`. -/
def transPkgJson : PackageJson :=
  { name := "author/root", version := v100, exposedModules := .flat ["Main"],
    dependencies := [("elm/c", range13), ("elm/b", range12)],
    testDependencies := [] }

/-- Manifest of `elm/c@2.0.0` in the loader store of the C4 counterexample. -/
def pkgJsonC : PackageJson :=
  { name := "elm/c", version := v200, exposedModules := .flat ["C"],
    dependencies := [], testDependencies := [] }

/-- Manifest of `elm/b@1.0.0` in the loader store of the C4 counterexample. -/
def pkgJsonB : PackageJson :=
  { name := "elm/b", version := v100, exposedModules := .flat ["B"],
    dependencies := [("elm/c", range12)], testDependencies := [] }

/-- Loader store matching `transStore` for the C4 counterexample. -/
def transLoaderStore : LoaderStore :=
  [(("elm/c", v200), pkgJsonC), (("elm/b", v100), pkgJsonB)]

theorem lookupKey_setKey_self {α : Type} (k : String) (v : α) (l : List (String × α)) :
    lookupKey k (setKey k v l) = some v := by
  induction l with
  | nil => simp [setKey, lookupKey]
  | cons hd tl ih =>
    obtain ⟨k', v'⟩ := hd
    by_cases h : k = k'
    · simp [setKey, lookupKey, h]
    · simp [setKey, lookupKey, h, ih]

theorem lookupKey_setKey_ne {α : Type} {k k' : String} (h : k ≠ k') (v : α)
    (l : List (String × α)) :
    lookupKey k (setKey k' v l) = lookupKey k l := by
  induction l with
  | nil => simp [setKey, lookupKey, h]
  | cons hd tl ih =>
    obtain ⟨k'', v''⟩ := hd
    by_cases h2 : k' = k''
    · subst h2
      simp [setKey, lookupKey, h]
    · by_cases h3 : k = k''
      · simp [setKey, lookupKey, h2, h3]
      · simp [setKey, lookupKey, h2, h3, ih]

theorem keys_setKey_of_lookup_some {α : Type} {k : String} {l : List (String × α)}
    {w : α} (h : lookupKey k l = some w) (v : α) :
    (setKey k v l).map Prod.fst = l.map Prod.fst := by
  induction l with
  | nil => simp [lookupKey] at h
  | cons hd tl ih =>
    obtain ⟨k', v'⟩ := hd
    by_cases h2 : k = k'
    · simp [setKey, h2]
    · simp [lookupKey, h2] at h
      simp [setKey, h2, ih h]

theorem keys_setKey_of_lookup_none {α : Type} {k : String} {l : List (String × α)}
    (h : lookupKey k l = none) (v : α) :
    (setKey k v l).map Prod.fst = l.map Prod.fst ++ [k] := by
  induction l with
  | nil => simp [setKey]
  | cons hd tl ih =>
    obtain ⟨k', v'⟩ := hd
    by_cases h2 : k = k'
    · simp [lookupKey, h2] at h
    · simp [lookupKey, h2] at h
      simp [setKey, h2, ih h]

theorem lookupKey_eq_none_iff {α : Type} (k : String) (l : List (String × α)) :
    lookupKey k l = none ↔ k ∉ l.map Prod.fst := by
  induction l with
  | nil => simp [lookupKey]
  | cons hd tl ih =>
    obtain ⟨k', v'⟩ := hd
    by_cases h : k = k'
    · simp [lookupKey, h]
    · simp [lookupKey, h, ih]

theorem lookupKey_isSome_of_mem {α : Type} {k : String} {v : α}
    {l : List (String × α)} (h : (k, v) ∈ l) :
    (lookupKey k l).isSome := by
  induction l with
  | nil => simp at h
  | cons hd tl ih =>
    obtain ⟨k', v'⟩ := hd
    by_cases h2 : k = k'
    · simp [lookupKey, h2]
    · simp [lookupKey, h2]
      rcases List.mem_cons.mp h with h3 | h3
      · exact absurd (congrArg Prod.fst h3) h2
      · exact ih h3

theorem versionLe_of_versionLt {a b : Version} (h : versionLt a b = true) :
    versionLe a b = true := by
  simp [versionLe, h]

theorem version_eq_of_not_lt {a b : Version} (h1 : versionLt a b = false)
    (h2 : versionLt b a = false) : a = b := by
  obtain ⟨a1, a2, a3⟩ := a
  obtain ⟨b1, b2, b3⟩ := b
  simp only [versionLt, decide_eq_false_iff_not] at h1 h2
  simp only [Version.mk.injEq]
  push_neg at h1 h2
  omega

theorem boundHolds_any_of_lt {a b : Version} (op : BoundOp)
    (h : versionLt a b = true) : boundHolds op a b = true := by
  cases op with
  | lt => exact h
  | le => exact versionLe_of_versionLt h

theorem versionLt_trans {a b c : Version} (h1 : versionLt a b = true)
    (h2 : versionLt b c = true) : versionLt a c = true := by
  obtain ⟨a1, a2, a3⟩ := a
  obtain ⟨b1, b2, b3⟩ := b
  obtain ⟨c1, c2, c3⟩ := c
  simp only [versionLt, decide_eq_true_eq] at h1 h2 ⊢
  omega

theorem boundHolds_lower_of_lt {l1 l2 v : Version} {op1 op2 : BoundOp}
    (hlt : versionLt l1 l2 = true) (h : boundHolds op2 l2 v = true) :
    boundHolds op1 l1 v = true := by
  refine boundHolds_any_of_lt op1 ?_
  cases op2 with
  | lt => exact versionLt_trans hlt h
  | le =>
    simp only [boundHolds, versionLe, Bool.or_eq_true, decide_eq_true_eq] at h
    rcases h with h | h
    · subst h
      exact hlt
    · exact versionLt_trans hlt h

theorem boundHolds_upper_of_lt {u1 u2 v : Version} {op1 op2 : BoundOp}
    (hlt : versionLt u1 u2 = true) (h : boundHolds op1 v u1 = true) :
    boundHolds op2 v u2 = true := by
  refine boundHolds_any_of_lt op2 ?_
  cases op1 with
  | lt => exact versionLt_trans h hlt
  | le =>
    simp only [boundHolds, versionLe, Bool.or_eq_true, decide_eq_true_eq] at h
    rcases h with h | h
    · subst h
      exact hlt
    · exact versionLt_trans h hlt

theorem stricterLower_sound {p q : Version × BoundOp} {v : Version}
    (h : boundHolds (stricterLower p q).2 (stricterLower p q).1 v = true) :
    boundHolds p.2 p.1 v = true ∧ boundHolds q.2 q.1 v = true := by
  obtain ⟨pl, pop⟩ := p
  obtain ⟨ql, qop⟩ := q
  by_cases h1 : versionLt pl ql = true
  · have hq : boundHolds qop ql v = true := by simpa [stricterLower, h1] using h
    exact ⟨boundHolds_lower_of_lt h1 hq, hq⟩
  · by_cases h2 : versionLt ql pl = true
    · have hp : boundHolds pop pl v = true := by
        simpa [stricterLower, h1, h2] using h
      exact ⟨hp, boundHolds_lower_of_lt h2 hp⟩
    · have heq : pl = ql := by
        refine version_eq_of_not_lt ?_ ?_
        · exact Bool.eq_false_iff.mpr h1
        · exact Bool.eq_false_iff.mpr h2
      subst heq
      simp only [stricterLower, h1, h2, if_false] at h
      by_cases h3 : pop = BoundOp.le ∧ qop = BoundOp.le
      · obtain ⟨e1, e2⟩ := h3
        subst e1; subst e2
        simp only [if_pos (And.intro rfl rfl)] at h
        exact ⟨h, h⟩
      · simp only [if_neg h3] at h
        exact ⟨boundHolds_any_of_lt pop h, boundHolds_any_of_lt qop h⟩

theorem stricterUpper_sound {p q : Version × BoundOp} {v : Version}
    (h : boundHolds (stricterUpper p q).2 v (stricterUpper p q).1 = true) :
    boundHolds p.2 v p.1 = true ∧ boundHolds q.2 v q.1 = true := by
  obtain ⟨pu, pop⟩ := p
  obtain ⟨qu, qop⟩ := q
  by_cases h1 : versionLt qu pu = true
  · have hq : boundHolds qop v qu = true := by simpa [stricterUpper, h1] using h
    exact ⟨boundHolds_upper_of_lt h1 hq, hq⟩
  · by_cases h2 : versionLt pu qu = true
    · have hp : boundHolds pop v pu = true := by
        simpa [stricterUpper, h1, h2] using h
      exact ⟨hp, boundHolds_upper_of_lt h2 hp⟩
    · have heq : qu = pu := by
        refine version_eq_of_not_lt ?_ ?_
        · exact Bool.eq_false_iff.mpr h1
        · exact Bool.eq_false_iff.mpr h2
      subst heq
      simp only [stricterUpper, h1, h2, if_false] at h
      by_cases h3 : pop = BoundOp.le ∧ qop = BoundOp.le
      · obtain ⟨e1, e2⟩ := h3
        subst e1; subst e2
        simp only [if_pos (And.intro rfl rfl)] at h
        exact ⟨h, h⟩
      · simp only [if_neg h3] at h
        exact ⟨boundHolds_any_of_lt pop h, boundHolds_any_of_lt qop h⟩

theorem satisfiesConstraint_of_intersect {a b : Constraint} {v : Version}
    (h : satisfiesConstraint v (intersectConstraint a b) = true) :
    satisfiesConstraint v a = true ∧ satisfiesConstraint v b = true := by
  simp only [satisfiesConstraint, intersectConstraint, Bool.and_eq_true] at h ⊢
  obtain ⟨hl, hu⟩ := h
  obtain ⟨hla, hlb⟩ := stricterLower_sound hl
  obtain ⟨hua, hub⟩ := stricterUpper_sound hu
  exact ⟨⟨hla, hua⟩, ⟨hlb, hub⟩⟩

theorem combineDeps_refines :
    ∀ (new deps deps' : List (String × Constraint)),
      combineDeps deps new = some deps' →
      ∀ n c, lookupKey n deps = some c →
        ∃ c', lookupKey n deps' = some c' ∧
          ∀ v, satisfiesConstraint v c' = true → satisfiesConstraint v c = true := by
  intro new
  induction new with
  | nil =>
    intro deps deps' h n c hc
    simp only [combineDeps, Option.some.injEq] at h
    exact ⟨c, h ▸ hc, fun v hv => hv⟩
  | cons hd rest ih =>
    intro deps deps' h n c hc
    obtain ⟨n0, c0⟩ := hd
    simp only [combineDeps] at h
    cases h0 : lookupKey n0 deps with
    | some cOld =>
      simp only [h0] at h
      by_cases hcan : constraintCanHold (intersectConstraint cOld c0) = true
      · simp only [hcan, if_true] at h
        by_cases hn : n = n0
        · subst hn
          have hc' : cOld = c := by
            rw [h0] at hc
            exact Option.some.inj hc
          subst hc'
          obtain ⟨c', hl, himp⟩ :=
            ih _ _ h n (intersectConstraint cOld c0) (lookupKey_setKey_self _ _ _)
          exact ⟨c', hl, fun v hv =>
            (satisfiesConstraint_of_intersect (himp v hv)).1⟩
        · obtain ⟨c', hl, himp⟩ := ih _ _ h n c (by
            rw [lookupKey_setKey_ne hn]
            exact hc)
          exact ⟨c', hl, himp⟩
      · simp [hcan] at h
    | none =>
      simp only [h0] at h
      by_cases hn : n = n0
      · subst hn
        rw [h0] at hc
        cases hc
      · obtain ⟨c', hl, himp⟩ := ih _ _ h n c (by
          rw [lookupKey_setKey_ne hn]
          exact hc)
        exact ⟨c', hl, himp⟩

theorem pickUnresolved_eq_none {deps : List (String × Constraint)}
    {sols : List (String × Version)} (h : pickUnresolved deps sols = none) :
    ∀ n c, lookupKey n deps = some c → ∃ v, lookupKey n sols = some v := by
  induction deps with
  | nil =>
    intro n c hc
    simp [lookupKey] at hc
  | cons hd rest ih =>
    intro n c hc
    obtain ⟨n0, c0⟩ := hd
    simp only [pickUnresolved] at h
    cases hs : lookupKey n0 sols with
    | some v0 =>
      rw [hs] at h
      simp only [Option.isSome_some, if_true] at h
      by_cases hn : n = n0
      · subst hn
        exact ⟨v0, hs⟩
      · simp only [lookupKey, hn, if_false] at hc
        exact ih h n c hc
    | none =>
      rw [hs] at h
      simp at h

theorem pickUnresolved_eq_some {deps : List (String × Constraint)}
    {sols : List (String × Version)} {name : String} {c : Constraint}
    (h : pickUnresolved deps sols = some (name, c)) :
    lookupKey name deps = some c ∧ lookupKey name sols = none := by
  induction deps with
  | nil => simp [pickUnresolved] at h
  | cons hd rest ih =>
    obtain ⟨n0, c0⟩ := hd
    simp only [pickUnresolved] at h
    cases hs : lookupKey n0 sols with
    | some v0 =>
      rw [hs] at h
      simp only [Option.isSome_some, if_true] at h
      obtain ⟨hl, hn⟩ := ih h
      have hne : name ≠ n0 := by
        intro he
        subst he
        rw [hn] at hs
        cases hs
      simp only [lookupKey, hne, if_false]
      exact ⟨hl, hn⟩
    | none =>
      rw [hs] at h
      simp only [Option.isSome_none, Bool.false_eq_true, if_false,
        Option.some.injEq, Prod.mk.injEq] at h
      obtain ⟨e1, e2⟩ := h
      subst e1
      subst e2
      simp only [lookupKey, if_pos rfl]
      exact ⟨rfl, hs⟩

theorem mem_insertDesc {x p : IPackage} {l : List IPackage}
    (h : x ∈ insertDesc p l) : x = p ∨ x ∈ l := by
  induction l with
  | nil =>
    simp only [insertDesc, List.mem_singleton] at h
    exact Or.inl h
  | cons q qs ih =>
    simp only [insertDesc] at h
    by_cases hlt : versionLt q.version p.version = true
    · simp only [hlt, if_true] at h
      rcases List.mem_cons.mp h with h1 | h1
      · exact Or.inl h1
      · exact Or.inr h1
    · simp only [hlt, if_false] at h
      rcases List.mem_cons.mp h with h1 | h1
      · exact Or.inr (List.mem_cons.mpr (Or.inl h1))
      · rcases ih h1 with h2 | h2
        · exact Or.inl h2
        · exact Or.inr (List.mem_cons.mpr (Or.inr h2))

theorem mem_sortDesc {x : IPackage} {l : List IPackage}
    (h : x ∈ sortDesc l) : x ∈ l := by
  induction l with
  | nil =>
    simp only [sortDesc] at h
    exact h
  | cons p ps ih =>
    simp only [sortDesc] at h
    rcases mem_insertDesc h with h1 | h1
    · exact List.mem_cons.mpr (Or.inl h1)
    · exact List.mem_cons.mpr (Or.inr (ih h1))

theorem versionInStore_of_mem {store : SolverStore} {n : String} {p : IPackage}
    (h : p ∈ storeGet store n) : versionInStore store n p.version = true := by
  simp only [versionInStore, List.any_eq_true]
  exact ⟨p, h, by simp⟩

theorem tryCandsWith_sound {store : SolverStore}
    {deps0 : List (String × Constraint)} {name : String}
    (recur : List (String × Constraint) → List (String × Version) →
      Option (List (String × Version)))
    (hrec : ∀ deps sols m, recur deps sols = some m →
      DepsRefines deps0 deps → SolsOk store deps0 sols → SatAssign store deps0 m) :
    ∀ (cands : List IPackage) (deps : List (String × Constraint))
      (sols : List (String × Version)) (m : List (String × Version)),
      tryCandsWith recur name cands deps sols = some m →
      DepsRefines deps0 deps → SolsOk store deps0 sols →
      (∀ p ∈ cands, versionInStore store name p.version = true ∧
        ∀ c0, lookupKey name deps0 = some c0 →
          satisfiesConstraint p.version c0 = true) →
      SatAssign store deps0 m := by
  intro cands
  induction cands with
  | nil =>
    intro deps sols m h
    simp [tryCandsWith] at h
  | cons p ps ih =>
    intro deps sols m h href hsols hcands
    simp only [tryCandsWith] at h
    cases hcomb : combineDeps deps p.dependencies with
    | none =>
      rw [hcomb] at h
      dsimp only at h
      exact ih deps sols m h href hsols
        (fun q hq => hcands q (List.mem_cons.mpr (Or.inr hq)))
    | some deps' =>
      rw [hcomb] at h
      dsimp only at h
      cases hr : recur deps' (setKey name p.version sols) with
      | some r =>
        rw [hr] at h
        dsimp only at h
        have hm : r = m := Option.some.inj h
        subst hm
        refine hrec deps' (setKey name p.version sols) r hr ?_ ?_
        · intro n c0 hc0
          obtain ⟨c1, hc1, himp1⟩ := href n c0 hc0
          obtain ⟨c2, hc2, himp2⟩ := combineDeps_refines _ _ _ hcomb n c1 hc1
          exact ⟨c2, hc2, fun v hv => himp1 v (himp2 v hv)⟩
        · intro n v hv
          by_cases hn : n = name
          · subst hn
            rw [lookupKey_setKey_self] at hv
            have hveq : p.version = v := Option.some.inj hv
            subst hveq
            obtain ⟨hstore, hsat⟩ := hcands p (List.mem_cons.mpr (Or.inl rfl))
            exact ⟨hstore, hsat⟩
          · rw [lookupKey_setKey_ne hn] at hv
            exact hsols n v hv
      | none =>
        rw [hr] at h
        dsimp only at h
        exact ih deps sols m h href hsols
          (fun q hq => hcands q (List.mem_cons.mpr (Or.inr hq)))

theorem solveWorker_sound :
    ∀ (fuel : Nat) (store : SolverStore)
      (deps0 deps : List (String × Constraint))
      (sols m : List (String × Version)),
      solveWorker fuel store deps sols = some m →
      DepsRefines deps0 deps → SolsOk store deps0 sols →
      SatAssign store deps0 m := by
  intro fuel
  induction fuel with
  | zero =>
    intro store deps0 deps sols m h
    simp [solveWorker] at h
  | succ fuel ih =>
    intro store deps0 deps sols m h href hsols
    simp only [solveWorker] at h
    cases hpick : pickUnresolved deps sols with
    | none =>
      rw [hpick] at h
      have hm : sols = m := Option.some.inj h
      subst hm
      intro n c hc
      obtain ⟨cD, hcD, himp⟩ := href n c hc
      obtain ⟨v, hv⟩ := pickUnresolved_eq_none hpick n cD hcD
      obtain ⟨hstore, hsat⟩ := hsols n v hv
      exact ⟨v, hv, hstore, hsat c hc⟩
    | some nc =>
      obtain ⟨name, c⟩ := nc
      rw [hpick] at h
      obtain ⟨hnameDeps, hnameSols⟩ := pickUnresolved_eq_some hpick
      refine tryCandsWith_sound (fun d s => solveWorker fuel store d s)
        (fun deps1 sols1 m1 h1 href1 hsols1 => ih store deps0 deps1 sols1 m1 h1 href1 hsols1)
        _ deps sols m h href hsols ?_
      intro p hp
      have hpFilter :
          p ∈ (storeGet store name).filter (fun q => satisfiesConstraint q.version c) :=
        mem_sortDesc hp
      obtain ⟨hpStore, hpSat⟩ := List.mem_filter.mp hpFilter
      refine ⟨versionInStore_of_mem hpStore, ?_⟩
      intro c0 hc0
      obtain ⟨cD, hcD, himp⟩ := href name c0 hc0
      have hcc : cD = c := by
        rw [hnameDeps] at hcD
        exact (Option.some.inj hcD).symm
      subst hcc
      exact himp p.version hpSat

/-- Soundness of the solver with respect to the INITIAL constraint map: every
name constrained by the root map that appears in a returned assignment is
assigned a store-available version satisfying that root constraint. -/
theorem solveDependencies_satAssign {fuel : Nat} {store : SolverStore}
    {deps0 : List (String × Constraint)} {m : List (String × Version)}
    (h : solveDependencies fuel store deps0 = some m) :
    SatAssign store deps0 m := by
  refine solveWorker_sound fuel store deps0 deps0 [] m h ?_ ?_
  · intro n c0 hc0
    exact ⟨c0, hc0, fun v hv => hv⟩
  · intro n v hv
    simp [lookupKey] at hv

theorem cachePreserves_refl (c : PkgCache) : cachePreserves c c :=
  fun _ h => h

theorem cachePreserves_trans {a b c : PkgCache} (h1 : cachePreserves a b)
    (h2 : cachePreserves b c) : cachePreserves a c :=
  fun k h => h2 k (h1 k h)

theorem cachePreserves_setKey (k0 : String) (v : Project) (c : PkgCache) :
    cachePreserves c (setKey k0 v c) := by
  intro k h
  by_cases hk : k = k0
  · subst hk
    rw [lookupKey_setKey_self]
    rfl
  · rw [lookupKey_setKey_ne hk]
    exact h

theorem loadDepsWithAux_preserves {α : Type}
    (load : String → List (String × Version) → PkgCache →
      Except LoadError (Project × PkgCache × List String))
    (hload : ∀ n vm c r, load n vm c = .ok r → cachePreserves c r.2.1)
    (versions : List (String × Version)) :
    ∀ (ds : List (String × α)) (cache : PkgCache) (dm : List (String × Project))
      (log : List String) (r : List (String × Project) × PkgCache × List String),
      loadDepsWithAux load versions ds cache dm log = .ok r →
      cachePreserves cache r.2.1 := by
  intro ds
  induction ds with
  | nil =>
    intro cache dm log r h
    simp only [loadDepsWithAux, Except.ok.injEq] at h
    rw [← h]
    exact cachePreserves_refl cache
  | cons hd rest ih =>
    intro cache dm log r h
    obtain ⟨dep, x⟩ := hd
    simp only [loadDepsWithAux] at h
    cases hl : load dep versions cache with
    | error e =>
      rw [hl] at h
      cases h
    | ok triple =>
      obtain ⟨proj, cache1, log1⟩ := triple
      rw [hl] at h
      dsimp only at h
      exact cachePreserves_trans (hload dep versions cache _ hl)
        (ih cache1 (setKey dep proj dm) (log ++ log1) r h)

theorem loadPackage_preserves (lstore : LoaderStore) (packagesRoot : String) :
    ∀ (fuel : Nat) (n : String) (vm : List (String × Version)) (cache : PkgCache)
      (r : Project × PkgCache × List String),
      loadPackage lstore packagesRoot fuel n vm cache = .ok r →
      cachePreserves cache r.2.1 := by
  intro fuel
  induction fuel with
  | zero =>
    intro n vm cache r h
    simp [loadPackage] at h
  | succ fuel ih =>
    intro n vm cache r h
    simp only [loadPackage] at h
    cases hv : lookupKey n vm with
    | none =>
      rw [hv] at h
      cases h
    | some version =>
      rw [hv] at h
      dsimp only at h
      cases hc : lookupKey (mkCacheKey n version) cache with
      | some cached =>
        rw [hc] at h
        dsimp only at h
        have := Except.ok.inj h
        rw [← this]
        exact cachePreserves_refl cache
      | none =>
        rw [hc] at h
        dsimp only at h
        cases hm : readPackageManifest lstore n version with
        | none =>
          rw [hm] at h
          cases h
        | some elmJson =>
          rw [hm] at h
          dsimp only at h
          cases hd : loadDepsWith
              (fun n2 vm2 c2 => loadPackage lstore packagesRoot fuel n2 vm2 c2)
              elmJson.dependencies vm cache with
          | error e =>
            rw [hd] at h
            cases h
          | ok triple =>
            obtain ⟨depMap, cache1, log1⟩ := triple
            rw [hd] at h
            dsimp only at h
            have hpres1 : cachePreserves cache cache1 :=
              loadDepsWithAux_preserves _
                (fun n2 vm2 c2 r2 h2 => ih n2 vm2 c2 r2 h2) vm
                elmJson.dependencies cache [] [] _ hd
            have := Except.ok.inj h
            rw [← this]
            exact cachePreserves_trans hpres1 (cachePreserves_setKey _ _ cache1)

theorem loadDepsWithAux_keys {α : Type}
    (load : String → List (String × Version) → PkgCache →
      Except LoadError (Project × PkgCache × List String))
    (versions : List (String × Version)) :
    ∀ (ds : List (String × α)) (cache : PkgCache) (dm : List (String × Project))
      (log : List String) (r : List (String × Project) × PkgCache × List String),
      loadDepsWithAux load versions ds cache dm log = .ok r →
      (ds.map Prod.fst).Nodup →
      (∀ k, k ∈ ds.map Prod.fst → lookupKey k dm = none) →
      r.1.map Prod.fst = dm.map Prod.fst ++ ds.map Prod.fst := by
  intro ds
  induction ds with
  | nil =>
    intro cache dm log r h _ _
    simp only [loadDepsWithAux, Except.ok.injEq] at h
    rw [← h]
    simp
  | cons hd rest ih =>
    intro cache dm log r h hnd hfresh
    obtain ⟨dep, x⟩ := hd
    simp only [loadDepsWithAux] at h
    cases hl : load dep versions cache with
    | error e =>
      rw [hl] at h
      cases h
    | ok triple =>
      obtain ⟨proj, cache1, log1⟩ := triple
      rw [hl] at h
      dsimp only at h
      have hdepFresh : lookupKey dep dm = none :=
        hfresh dep (by simp)
      have hndRest : (rest.map Prod.fst).Nodup := by
        simp only [List.map_cons, List.nodup_cons] at hnd
        exact hnd.2
      have hdepNotRest : dep ∉ rest.map Prod.fst := by
        simp only [List.map_cons, List.nodup_cons] at hnd
        exact hnd.1
      have hfreshRest : ∀ k, k ∈ rest.map Prod.fst →
          lookupKey k (setKey dep proj dm) = none := by
        intro k hk
        have hne : k ≠ dep := by
          intro he
          subst he
          exact hdepNotRest hk
        rw [lookupKey_setKey_ne hne]
        exact hfresh k (by simp [hk])
      have := ih cache1 (setKey dep proj dm) (log ++ log1) r h hndRest hfreshRest
      rw [this, keys_setKey_of_lookup_none hdepFresh]
      simp

theorem keys_nodup_setKey {α : Type} {l : List (String × α)}
    (h : (l.map Prod.fst).Nodup) (k : String) (v : α) :
    ((setKey k v l).map Prod.fst).Nodup := by
  cases hl : lookupKey k l with
  | some w => rw [keys_setKey_of_lookup_some hl] ; exact h
  | none =>
    rw [keys_setKey_of_lookup_none hl]
    refine List.Nodup.append h (List.nodup_singleton k) ?_
    intro a ha hb
    rw [List.mem_singleton] at hb
    subst hb
    exact (lookupKey_eq_none_iff a l).mp hl ha

theorem keys_nodup_jsAssign {α : Type} (source : List (String × α)) :
    ∀ (target : List (String × α)), (target.map Prod.fst).Nodup →
      ((jsAssign target source).map Prod.fst).Nodup := by
  induction source with
  | nil =>
    intro target h
    exact h
  | cons hd rest ih =>
    intro target h
    simp only [jsAssign, List.foldl_cons] at *
    exact ih (setKey hd.1 hd.2 target) (keys_nodup_setKey h hd.1 hd.2)

theorem lookup_copyExposedEntries {exposed : List String}
    {m u : String} :
    ∀ {entries table : List (String × String)},
      lookupKey m (copyExposedEntries exposed entries table) = some u →
      lookupKey m table = some u ∨
        (exposed.contains m = true ∧ (m, u) ∈ entries) := by
  intro entries
  induction entries with
  | nil =>
    intro table h
    exact Or.inl h
  | cons mu rest ih =>
    intro table h
    simp only [copyExposedEntries, List.foldl_cons] at h
    rcases ih h with h1 | h1
    · by_cases hc : exposed.contains mu.1 = true
      · rw [if_pos hc] at h1
        by_cases hm : m = mu.1
        · subst hm
          rw [lookupKey_setKey_self] at h1
          have hu : mu.2 = u := Option.some.inj h1
          refine Or.inr ⟨hc, ?_⟩
          rw [← hu]
          exact List.mem_cons.mpr (Or.inl rfl)
        · rw [lookupKey_setKey_ne hm] at h1
          exact Or.inl h1
      · rw [if_neg hc] at h1
        exact Or.inl h1
    · exact Or.inr ⟨h1.1, List.mem_cons.mpr (Or.inr h1.2)⟩

theorem lookup_copyFromDeps {m u : String} :
    ∀ {deps : List (String × Project)} {table : List (String × String)},
      lookupKey m (copyFromDeps deps table) = some u →
      lookupKey m table = some u ∨
        ∃ nd, nd ∈ deps ∧ nd.2.exposedModules.contains m = true ∧
          (m, u) ∈ nd.2.moduleToUriMap := by
  intro deps
  induction deps with
  | nil =>
    intro table h
    exact Or.inl h
  | cons nd rest ih =>
    intro table h
    simp only [copyFromDeps, List.foldl_cons] at h
    rcases ih h with h1 | h1
    · rcases lookup_copyExposedEntries h1 with h2 | h2
      · exact Or.inl h2
      · exact Or.inr ⟨nd, List.mem_cons.mpr (Or.inl rfl), h2.1, h2.2⟩
    · obtain ⟨nd', hmem, hexp, hentry⟩ := h1
      exact Or.inr ⟨nd', List.mem_cons.mpr (Or.inr hmem), hexp, hentry⟩

/-- C2: exposure propagation only ever copies into a consuming project's
module-name-to-URI table entries that come from one of that project's direct
dependencies (test dependencies only for the root) and whose module name is a
member of that dependency's exposed-module set; a module name that no
dependency exposes is never inserted — after propagation every table entry is
either an original entry of the project or an exposed entry of a dependency. -/
theorem exposure_propagates_only_exposed_modules
    (fuel : Nat) (isRoot : Bool) (p : Project) (m u : String)
    (h : lookupKey m
      (findExposedModulesOfDependencies fuel isRoot p).moduleToUriMap = some u) :
    lookupKey m p.moduleToUriMap = some u ∨
      ∃ nd, (nd ∈ p.dependencies ∨ (isRoot = true ∧ nd ∈ p.testDependencies)) ∧
        nd.2.exposedModules.contains m = true ∧ (m, u) ∈ nd.2.moduleToUriMap := by
  cases fuel with
  | zero => exact Or.inl h
  | succ fuel =>
    obtain ⟨k, uri, sd, td, deps, tdeps, em, tbl⟩ := p
    simp only [findExposedModulesOfDependencies, Project.moduleToUriMap,
      Project.dependencies, Project.testDependencies] at h ⊢
    cases isRoot with
    | false =>
      simp only [if_neg (Bool.false_ne_true)] at h
      rcases lookup_copyFromDeps h with h1 | h1
      · exact Or.inl h1
      · obtain ⟨nd, hmem, hexp, hentry⟩ := h1
        exact Or.inr ⟨nd, Or.inl hmem, hexp, hentry⟩
    | true =>
      simp only [if_pos rfl] at h
      rcases lookup_copyFromDeps h with h1 | h1
      · rcases lookup_copyFromDeps h1 with h2 | h2
        · exact Or.inl h2
        · obtain ⟨nd, hmem, hexp, hentry⟩ := h2
          exact Or.inr ⟨nd, Or.inl hmem, hexp, hentry⟩
      · obtain ⟨nd, hmem, hexp, hentry⟩ := h1
        exact Or.inr ⟨nd, Or.inr ⟨rfl, hmem⟩, hexp, hentry⟩

/-- C2 witness: on the concrete root `rootW` whose only dependency `depD`
exposes `M` and hides `Hidden`, the propagated entry for `M` is accounted for
by the theorem: it comes from `depD` with `M` exposed. -/
theorem exposure_propagates_only_exposed_modules_witness :
    lookupKey "M" rootW.moduleToUriMap = some "file:///dep/src/M.elm" ∨
      ∃ nd, (nd ∈ rootW.dependencies ∨ (true = true ∧ nd ∈ rootW.testDependencies)) ∧
        nd.2.exposedModules.contains "M" = true ∧
        ("M", "file:///dep/src/M.elm") ∈ nd.2.moduleToUriMap :=
  exposure_propagates_only_exposed_modules 2 true rootW "M" "file:///dep/src/M.elm"
    (by decide)

theorem startsWithList_le_length :
    ∀ {pat l : List Char}, startsWithList pat l = true → pat.length ≤ l.length := by
  intro pat
  induction pat with
  | nil =>
    intro l _
    simp
  | cons c cs ih =>
    intro l h
    cases l with
    | nil => simp [startsWithList] at h
    | cons d ds =>
      simp only [startsWithList, Bool.and_eq_true, decide_eq_true_eq] at h
      simpa using ih h.2

theorem startsWithList_eq_of_length :
    ∀ {pat l : List Char}, startsWithList pat l = true →
      pat.length = l.length → pat = l := by
  intro pat
  induction pat with
  | nil =>
    intro l _ hlen
    exact (List.eq_nil_of_length_eq_zero hlen.symm).symm
  | cons c cs ih =>
    intro l h hlen
    cases l with
    | nil => simp [startsWithList] at h
    | cons d ds =>
      simp only [startsWithList, Bool.and_eq_true, decide_eq_true_eq] at h
      simp only [List.length_cons, Nat.succ.injEq] at hlen
      rw [h.1, ih h.2 hlen]

theorem firstOccIdx_startsWith {pat : List Char} :
    ∀ {l : List Char} {i : Nat}, firstOccIdx pat l = some i →
      startsWithList pat (l.drop i) = true := by
  intro l
  induction l with
  | nil =>
    intro i h
    simp [firstOccIdx] at h
  | cons c cs ih =>
    intro i h
    simp only [firstOccIdx] at h
    by_cases hs : startsWithList pat (c :: cs) = true
    · rw [if_pos hs] at h
      have : (0 : Nat) = i := Option.some.inj h
      subst this
      exact hs
    · rw [if_neg hs] at h
      cases hrec : firstOccIdx pat cs with
      | none =>
        rw [hrec] at h
        cases h
      | some j =>
        rw [hrec] at h
        simp only [Option.map_some', Option.some.injEq] at h
        subst h
        simpa using ih hrec

theorem replaceFirst_at_firstOccIdx {pat rep : List Char} :
    ∀ {l : List Char} {i : Nat}, firstOccIdx pat l = some i →
      replaceFirstList pat rep l = l.take i ++ rep ++ l.drop (i + pat.length) := by
  intro l
  induction l with
  | nil =>
    intro i h
    simp [firstOccIdx] at h
  | cons c cs ih =>
    intro i h
    simp only [firstOccIdx] at h
    by_cases hs : startsWithList pat (c :: cs) = true
    · rw [if_pos hs] at h
      have : (0 : Nat) = i := Option.some.inj h
      subst this
      simp [replaceFirstList, hs]
    · rw [if_neg hs] at h
      cases hrec : firstOccIdx pat cs with
      | none =>
        rw [hrec] at h
        cases h
      | some j =>
        rw [hrec] at h
        simp only [Option.map_some', Option.some.injEq] at h
        subst h
        have harith : j + 1 + pat.length = (j + pat.length) + 1 := by omega
        simp only [replaceFirstList, if_neg hs, ih hrec, harith, List.take_succ_cons,
          List.drop_succ_cons, List.cons_append]

/-- C9 (amended): the worker derives the module name by removing the FIRST
occurrence of the substring `.elm` from the relative path (JavaScript
`replace` with a string pattern) and turning `/` separators into `.`;
whenever the first occurrence of `.elm` in the relative path is the trailing
extension — in particular whenever `.elm` occurs only as the extension — this
agrees with the specification's "trailing extension stripped" rule. -/
theorem moduleName_matches_spec_when_first_occurrence_is_extension
    (sourceDir matchingPath : String)
    (h : firstOccIdx elmPatChars (relativeChars sourceDir.data matchingPath.data) =
      some ((relativeChars sourceDir.data matchingPath.data).length - 4)) :
    moduleNameOf sourceDir matchingPath = moduleNameSpecOf sourceDir matchingPath := by
  have hstart := firstOccIdx_startsWith h
  set rel := relativeChars sourceDir.data matchingPath.data with hrel
  have hlen4 : (4 : Nat) ≤ (rel.drop (rel.length - 4)).length := by
    have := startsWithList_le_length hstart
    simpa [elmPatChars] using this
  have hlen : 4 ≤ rel.length := by
    rw [List.length_drop] at hlen4
    omega
  have hdropLen : (rel.drop (rel.length - 4)).length = 4 := by
    rw [List.length_drop]
    omega
  have hsuffix : rel.drop (rel.length - 4) = elmPatChars := by
    have := startsWithList_eq_of_length hstart (by
      rw [hdropLen]
      rfl)
    exact this.symm
  have hrepl : replaceFirstList elmPatChars [] rel =
      rel.take (rel.length - 4) := by
    rw [replaceFirst_at_firstOccIdx h]
    have : rel.length - 4 + elmPatChars.length = rel.length := by
      simp only [elmPatChars, List.length_cons, List.length_nil]
      omega
    rw [this, List.drop_length]
    simp
  simp only [moduleNameOf, moduleNameSpecOf, ← hrel, hrepl, hsuffix]
  simp

/-- C9 counterexample: for the file `src/a.elm/B.elm` under the source
directory `src` (a directory name containing `.elm`), the worker records the
module name `a.B.elm` — the FIRST occurrence of `.elm` is removed — whereas
the specified rule (trailing extension stripped, separators to dots) gives
`a.elm.B`; the recorded module name differs from the specified one. -/
theorem moduleName_trailing_extension_counterexample :
    findElmFilesInProjectWorker "src" [] ["src/a.elm/B.elm"] =
      [("a.B.elm", "src/a.elm/B.elm")] ∧
    moduleNameOf "src" "src/a.elm/B.elm" = "a.B.elm" ∧
    moduleNameSpecOf "src" "src/a.elm/B.elm" = "a.elm.B" ∧
    ("a.B.elm" : String) ≠ "a.elm.B" := by
  refine ⟨by decide, by decide, by decide, by decide⟩

/-- C9 witness: for the ordinary path `src/Foo/Bar.elm` the first occurrence
of `.elm` is the trailing extension, and the worker's module name agrees with
the specified derivation. -/
theorem moduleName_matches_spec_witness :
    moduleNameOf "src" "src/Foo/Bar.elm" = moduleNameSpecOf "src" "src/Foo/Bar.elm" :=
  moduleName_matches_spec_when_first_occurrence_is_extension "src" "src/Foo/Bar.elm"
    (by decide)

/-- C5 (amended): on every clean-to-dirty transition (a `markAsDirty` call
while the flag is false) the flag is set, the type checker instance is dropped
and the DIAGNOSTICS cache is cleared, but the TYPE cache is left untouched —
`markAsDirty` never clears `typeCache`. -/
theorem markAsDirty_clears_diagnostics_not_typeCache (s : WorkspaceState)
    (h : s.dirty = false) :
    (markAsDirty s).dirty = true ∧ (markAsDirty s).typeChecker = none ∧
    (markAsDirty s).diagnosticsCache = [] ∧
    (markAsDirty s).typeCache = s.typeCache := by
  simp [markAsDirty, h]

/-- C5 counterexample: in the clean state `cleanStateW` with a non-empty type
cache, `markAsDirty` performs the clean-to-dirty transition but the type
cache keeps its entry — it is not cleared, contradicting the claim that both
the type cache and the diagnostics cache are cleared. -/
theorem markAsDirty_typeCache_counterexample :
    cleanStateW.dirty = false ∧ (markAsDirty cleanStateW).dirty = true ∧
    (markAsDirty cleanStateW).diagnosticsCache = [] ∧
    (markAsDirty cleanStateW).typeCache = [("expr", 7)] ∧
    (markAsDirty cleanStateW).typeCache ≠ [] := by
  refine ⟨rfl, by decide, by decide, by decide, by decide⟩

/-- C5 witness: the amended theorem applied to the concrete clean state. -/
theorem markAsDirty_clears_diagnostics_not_typeCache_witness :
    (markAsDirty cleanStateW).dirty = true ∧
    (markAsDirty cleanStateW).typeChecker = none ∧
    (markAsDirty cleanStateW).diagnosticsCache = [] ∧
    (markAsDirty cleanStateW).typeCache = cleanStateW.typeCache :=
  markAsDirty_clears_diagnostics_not_typeCache cleanStateW rfl

/-- C7: on every reachable workspace state (dirty implies an empty
diagnostics cache), after a `markAsDirty` call every previously cached
semantic diagnostics entry for every URI is absent, and the clearing happens
exactly once per clean-to-dirty transition: a call while the flag is already
dirty performs no clearing and leaves the state unchanged. -/
theorem markAsDirty_clears_diagnostics_once (s : WorkspaceState)
    (h : DirtyCacheInvariant s) :
    (markAsDirty s).diagnosticsCache = [] ∧
    (∀ uri, lookupKey uri (markAsDirty s).diagnosticsCache = none) ∧
    (s.dirty = true → markAsDirty s = s) := by
  cases hd : s.dirty with
  | false =>
    refine ⟨by simp [markAsDirty, hd], ?_, ?_⟩
    · intro uri
      simp [markAsDirty, hd, lookupKey]
    · intro hcontra
      exact Bool.noConfusion hcontra
  | true =>
    have hempty : s.diagnosticsCache = [] := h hd
    have hsame : markAsDirty s = s := by simp [markAsDirty, hd]
    refine ⟨by rw [hsame, hempty], ?_, fun _ => hsame⟩
    intro uri
    rw [hsame, hempty]
    rfl

/-- C7 witness: the theorem applied to the concrete clean state with a cached
diagnostics entry. -/
theorem markAsDirty_clears_diagnostics_once_witness :
    (markAsDirty cleanStateW).diagnosticsCache = [] ∧
    (∀ uri, lookupKey uri (markAsDirty cleanStateW).diagnosticsCache = none) ∧
    (cleanStateW.dirty = true → markAsDirty cleanStateW = cleanStateW) :=
  markAsDirty_clears_diagnostics_once cleanStateW (fun h => absurd h (by decide))

theorem getTypeCheckerStep_dirty_false (s : WorkspaceState) :
    (getTypeCheckerStep s).dirty = false := by
  simp only [getTypeCheckerStep]
  cases hd : s.dirty with
  | false =>
    simp only [Bool.false_eq_true, if_false]
    cases s.typeChecker with
    | some u => exact hd
    | none => exact hd
  | true =>
    simp only [if_pos rfl]
    cases htc : ({ s with dirty := false } : WorkspaceState).typeChecker with
    | some u => rfl
    | none => rfl

theorem dirtyCacheInvariant_step (s : WorkspaceState) (op : WorkspaceOp)
    (h : DirtyCacheInvariant s) : DirtyCacheInvariant (stepWorkspace s op) := by
  cases op with
  | markDirty =>
    intro _
    simp only [stepWorkspace, markAsDirty]
    cases hd : s.dirty with
    | true =>
      simp only [if_pos rfl]
      exact h hd
    | false => simp
  | getForest synchronize =>
    intro hdirty
    simp only [stepWorkspace, getForestStep] at hdirty ⊢
    by_cases hc : (s.dirty && synchronize) = true
    · rw [if_pos hc] at hdirty
      cases hdirty
    · rw [if_neg hc] at hdirty ⊢
      exact h hdirty
  | getChecker =>
    intro hdirty
    simp only [stepWorkspace] at hdirty
    simp only [getTypeCheckerStep_dirty_false] at hdirty
    cases hdirty
  | getDiagnostics uri computed =>
    have hcase : stepWorkspace s (.getDiagnostics uri computed) = s ∨
        (stepWorkspace s (.getDiagnostics uri computed)).dirty = false := by
      simp only [stepWorkspace, getSemanticDiagnosticsStep]
      cases hl : lookupKey uri s.diagnosticsCache with
      | some d => exact Or.inl rfl
      | none => exact Or.inr (getTypeCheckerStep_dirty_false s)
    rcases hcase with he | he
    · rw [he]
      exact h
    · intro hdirty
      rw [he] at hdirty
      cases hdirty

theorem dirtyCacheInvariant_runWorkspace :
    ∀ (ops : List WorkspaceOp) (s : WorkspaceState), DirtyCacheInvariant s →
      DirtyCacheInvariant (runWorkspace s ops) := by
  intro ops
  induction ops with
  | nil =>
    intro s h
    exact h
  | cons op rest ih =>
    intro s h
    exact ih (stepWorkspace s op) (dirtyCacheInvariant_step s op h)

/-- C10: starting from the freshly constructed workspace (dirty, empty
caches), after any sequence of `markAsDirty`, `getForest`, `getTypeChecker`
and `getSemanticDiagnostics` calls, whenever the dirty flag is true the
semantic diagnostics cache holds no entry: `markAsDirty` clears the cache
whenever it sets the flag, and every cache insertion is preceded by a
`getTypeChecker` call that clears the flag. -/
theorem dirty_implies_empty_diagnostics_cache (ops : List WorkspaceOp) :
    DirtyCacheInvariant (runWorkspace initialWorkspaceState ops) :=
  dirtyCacheInvariant_runWorkspace ops initialWorkspaceState (fun _ => rfl)

/-- C10 witness: after the concrete call sequence diagnostics-read (inserting
a cache entry) followed by `markAsDirty`, the flag is dirty and the theorem
yields the empty diagnostics cache. -/
theorem dirty_implies_empty_diagnostics_cache_witness :
    (runWorkspace initialWorkspaceState
      [WorkspaceOp.getDiagnostics "file:///a.elm" [3], WorkspaceOp.markDirty]
      ).diagnosticsCache = [] :=
  dirty_implies_empty_diagnostics_cache
    [WorkspaceOp.getDiagnostics "file:///a.elm" [3], WorkspaceOp.markDirty]
    (by decide)

theorem addAllToForest_cons (readParse : String → Except String Nat)
    (acc : InitAcc) (g : String) (rest : List String) :
    addAllToForest readParse acc (g :: rest) =
      addAllToForest readParse (readAndAddToForest readParse acc g) rest := rfl

theorem lookup_addAllToForest_not_mem (readParse : String → Except String Nat) :
    ∀ (files : List String) (acc : InitAcc) (f : String), f ∉ files →
      lookupKey f (addAllToForest readParse acc files).forest =
        lookupKey f acc.forest := by
  intro files
  induction files with
  | nil =>
    intro acc f _
    rfl
  | cons g rest ih =>
    intro acc f hf
    have hfg : f ≠ g := fun he => hf (he ▸ List.mem_cons.mpr (Or.inl rfl))
    have hfr : f ∉ rest := fun hr => hf (List.mem_cons.mpr (Or.inr hr))
    rw [addAllToForest_cons, ih (readAndAddToForest readParse acc g) f hfr]
    simp only [readAndAddToForest]
    cases readParse g with
    | ok t => exact lookupKey_setKey_ne hfg t acc.forest
    | error e => rfl

theorem lookup_addAllToForest (readParse : String → Except String Nat) :
    ∀ (files : List String) (acc : InitAcc) (f : String), f ∈ files →
      files.Nodup →
      lookupKey f (addAllToForest readParse acc files).forest =
        (match readParse f with
         | .ok t => some t
         | .error _ => lookupKey f acc.forest) := by
  intro files
  induction files with
  | nil =>
    intro acc f hf
    simp at hf
  | cons g rest ih =>
    intro acc f hf hnd
    have hgrest : g ∉ rest := (List.nodup_cons.mp hnd).1
    have hndrest : rest.Nodup := (List.nodup_cons.mp hnd).2
    rw [addAllToForest_cons]
    rcases List.mem_cons.mp hf with he | hmem
    · subst he
      rw [lookup_addAllToForest_not_mem readParse rest _ f hgrest]
      simp only [readAndAddToForest]
      cases hr : readParse f with
      | ok t => exact lookupKey_setKey_self f t acc.forest
      | error e => rfl
    · have hfg : f ≠ g := fun he => hgrest (he ▸ hmem)
      rw [ih (readAndAddToForest readParse acc g) f hmem hndrest]
      cases hr : readParse f with
      | ok t => rfl
      | error e =>
        simp only [readAndAddToForest]
        cases readParse g with
        | ok t2 => exact lookupKey_setKey_ne hfg t2 acc.forest
        | error e2 => rfl

theorem errLog_addAllToForest_mono (readParse : String → Except String Nat) :
    ∀ (files : List String) (acc : InitAcc) (e : String), e ∈ acc.errLog →
      e ∈ (addAllToForest readParse acc files).errLog := by
  intro files
  induction files with
  | nil =>
    intro acc e he
    exact he
  | cons g rest ih =>
    intro acc e he
    rw [addAllToForest_cons]
    refine ih (readAndAddToForest readParse acc g) e ?_
    simp only [readAndAddToForest]
    cases readParse g with
    | ok t => exact he
    | error e2 => exact List.mem_append.mpr (Or.inl he)

theorem err_in_addAllToForest_log (readParse : String → Except String Nat) :
    ∀ (files : List String) (acc : InitAcc) (f e : String), f ∈ files →
      readParse f = .error e →
      e ∈ (addAllToForest readParse acc files).errLog := by
  intro files
  induction files with
  | nil =>
    intro acc f e hf
    simp at hf
  | cons g rest ih =>
    intro acc f e hf herr
    rw [addAllToForest_cons]
    rcases List.mem_cons.mp hf with he | hmem
    · subst he
      refine errLog_addAllToForest_mono readParse rest _ e ?_
      simp only [readAndAddToForest, herr]
      exact List.mem_append.mpr (Or.inr (List.mem_singleton.mpr rfl))
    · exact ih (readAndAddToForest readParse acc g) f e hmem herr

/-- C8: during bulk forest population at initialization, a failure to read or
parse one file is recovered locally — the error is logged on the console, no
forest entry is created for that file — and every other file of the batch is
still read, parsed and added to the forest: the batch is never aborted by one
file's failure. -/
theorem forest_population_isolates_file_failures
    (readParse : String → Except String Nat) (files : List String) (f : String)
    (hmem : f ∈ files) (hnd : files.Nodup) :
    (∀ t, readParse f = .ok t →
      lookupKey f (addAllToForest readParse ⟨[], []⟩ files).forest = some t) ∧
    (∀ e, readParse f = .error e →
      lookupKey f (addAllToForest readParse ⟨[], []⟩ files).forest = none ∧
      e ∈ (addAllToForest readParse ⟨[], []⟩ files).errLog) := by
  constructor
  · intro t ht
    rw [lookup_addAllToForest readParse files ⟨[], []⟩ f hmem hnd, ht]
  · intro e he
    refine ⟨?_, err_in_addAllToForest_log readParse files ⟨[], []⟩ f e hmem he⟩
    rw [lookup_addAllToForest readParse files ⟨[], []⟩ f hmem hnd, he]
    rfl

/-- C8 witness: in the concrete batch `A`, `B`, `C` where only reading `B`
fails, `A` gets its forest entry, `B` gets none, and the failure is logged. -/
theorem forest_population_isolates_file_failures_witness :
    lookupKey "A" (addAllToForest readParseW ⟨[], []⟩ ["A", "B", "C"]).forest = some 7 ∧
    lookupKey "B" (addAllToForest readParseW ⟨[], []⟩ ["A", "B", "C"]).forest = none ∧
    "boom" ∈ (addAllToForest readParseW ⟨[], []⟩ ["A", "B", "C"]).errLog := by
  have hA := forest_population_isolates_file_failures readParseW ["A", "B", "C"] "A"
    (by decide) (by decide)
  have hB := forest_population_isolates_file_failures readParseW ["A", "B", "C"] "B"
    (by decide) (by decide)
  exact ⟨hA.1 7 rfl, (hB.2 "boom" rfl).1, (hB.2 "boom" rfl).2⟩

theorem loadPackage_cache_hit (lstore : LoaderStore) (proot : String) (g : Nat)
    (name : String) (versions : List (String × Version)) (cache2 : PkgCache)
    {v : Version} {q : Project}
    (hv : lookupKey name versions = some v)
    (hq : lookupKey (mkCacheKey name v) cache2 = some q) :
    loadPackage lstore proot (g + 1) name versions cache2 = .ok (q, cache2, []) := by
  simp only [loadPackage]
  rw [hv]
  dsimp only
  rw [hq]

/-- C3: memoization of `loadPackage` by the `name@version` cache key within
one load cycle.  A successful non-cached call stores the resulting Project in
the resolved-package cache under its key and records exactly that key as the
expensive load it performed; every key already cached stays cached; a call
while the key is cached is a pure cache hit — it returns the cached Project
with the cache unchanged and performs no load at all (so a second dependent
requiring the same package name at the same version never loads it again). -/
theorem loadPackage_memoizes_per_key (lstore : LoaderStore) (proot : String)
    (fuel : Nat) (name : String) (versions : List (String × Version))
    (cache : PkgCache) (p : Project) (cache' : PkgCache) (log : List String)
    (v : Version)
    (h : loadPackage lstore proot (fuel + 1) name versions cache = .ok (p, cache', log))
    (hv : lookupKey name versions = some v) :
    lookupKey (mkCacheKey name v) cache' = some p ∧
    (∀ k, (lookupKey k cache).isSome = true → (lookupKey k cache').isSome = true) ∧
    (∀ q, lookupKey (mkCacheKey name v) cache = some q →
      p = q ∧ cache' = cache ∧ log = []) ∧
    (lookupKey (mkCacheKey name v) cache = none → mkCacheKey name v ∈ log) ∧
    (∀ g cache2, lookupKey (mkCacheKey name v) cache2 = some p →
      loadPackage lstore proot (g + 1) name versions cache2 = .ok (p, cache2, [])) := by
  simp only [loadPackage] at h
  rw [hv] at h
  dsimp only at h
  cases hc : lookupKey (mkCacheKey name v) cache with
  | some cached =>
    rw [hc] at h
    dsimp only at h
    have hinj := Except.ok.inj h
    have hp : cached = p := congrArg Prod.fst hinj
    have hcc : cache = cache' := congrArg (fun x => x.2.1) hinj
    have hlog : ([] : List String) = log := congrArg (fun x => x.2.2) hinj
    subst hp
    subst hcc
    subst hlog
    refine ⟨hc, fun k hk => hk,
      fun q hq => ⟨Option.some.inj hq, rfl, rfl⟩,
      fun hnone => Option.noConfusion hnone,
      fun g cache2 hq => loadPackage_cache_hit lstore proot g name versions cache2 hv hq⟩
  | none =>
    rw [hc] at h
    dsimp only at h
    cases hm : readPackageManifest lstore name v with
    | none =>
      rw [hm] at h
      cases h
    | some elmJson =>
      rw [hm] at h
      dsimp only at h
      cases hd : loadDepsWith (fun n vm c => loadPackage lstore proot fuel n vm c)
          elmJson.dependencies versions cache with
      | error e =>
        rw [hd] at h
        cases h
      | ok triple =>
        obtain ⟨depMap, cache1, log1⟩ := triple
        rw [hd] at h
        dsimp only at h
        have hinj := Except.ok.inj h
        have hp : Project.mk .package (pathToPackageWithVersion proot name v)
            [pathToPackageWithVersion proot name v ++ "/src"]
            [pathToPackageWithVersion proot name v ++ "/tests"]
            depMap [] (flatternExposedModules elmJson.exposedModules) [] = p :=
          congrArg Prod.fst hinj
        have hcc : setKey (mkCacheKey name v) _ cache1 = cache' :=
          congrArg (fun x => x.2.1) hinj
        have hlog : log1 ++ [mkCacheKey name v] = log :=
          congrArg (fun x => x.2.2) hinj
        subst hp
        rw [← hcc, ← hlog]
        have hpres1 : cachePreserves cache cache1 :=
          loadDepsWithAux_preserves _
            (fun n2 vm2 c2 r2 h2 => loadPackage_preserves lstore proot fuel n2 vm2 c2 r2 h2)
            versions elmJson.dependencies cache [] [] _ hd
        refine ⟨lookupKey_setKey_self _ _ _, ?_, ?_, ?_, ?_⟩
        · intro k hk
          exact cachePreserves_setKey _ _ cache1 k (hpres1 k hk)
        · intro q hq
          exact Option.noConfusion hq
        · intro _
          exact List.mem_append.mpr (Or.inr (List.mem_singleton.mpr rfl))
        · intro g cache2 hq
          exact loadPackage_cache_hit lstore proot g name versions cache2 hv hq

/-- C3 witness: the first load of `a/x` (pinned to 1.0.0) from an empty cache
stores the Project under `a/x@1.0.0` and records that single expensive load;
a second call on the resulting cache is a pure cache hit. -/
theorem loadPackage_memoizes_per_key_witness :
    lookupKey (mkCacheKey "a/x" v100) [("a/x@1.0.0", projX)] = some projX ∧
    loadPackage loaderStoreXY "pkgs/" 1 "a/x" vmapX [("a/x@1.0.0", projX)] =
      .ok (projX, [("a/x@1.0.0", projX)], []) := by
  have h := loadPackage_memoizes_per_key loaderStoreXY "pkgs/" 1 "a/x" vmapX []
    projX [("a/x@1.0.0", projX)] ["a/x@1.0.0"] v100 (by rfl) (by rfl)
  exact ⟨h.1, h.2.2.2.2 0 [("a/x@1.0.0", projX)] h.1⟩

/-- C6 (amended): for an application root manifest, the Project's
`dependencies` map contains exactly one entry for each package name of the
MERGED map of all four groups (`Object.assign` mutates
`elmJson.dependencies.direct`, so direct, indirect, test-direct and
test-indirect names are all loaded into `dependencies`), and the
`testDependencies` map contains exactly one entry for each name under
`test-dependencies.direct`. -/
theorem application_dependency_maps_match_manifest
    (fuel : Nat) (sstore : SolverStore) (lstore : LoaderStore)
    (proot rpath ruri : String) (a : ApplicationJson) (p : Project)
    (h : loadRootProject fuel sstore lstore proot rpath ruri (.application a) = .ok p)
    (hd : (a.depsDirect.map Prod.fst).Nodup)
    (ht : (a.testDepsDirect.map Prod.fst).Nodup) :
    p.dependencies.map Prod.fst =
      (jsAssign (jsAssign (jsAssign a.depsDirect a.depsIndirect) a.testDepsDirect)
        a.testDepsIndirect).map Prod.fst ∧
    p.testDependencies.map Prod.fst = a.testDepsDirect.map Prod.fst := by
  simp only [loadRootProject] at h
  cases h1 : loadDepsWith (fun n vm c => loadPackage lstore proot fuel n vm c)
      (jsAssign (jsAssign (jsAssign a.depsDirect a.depsIndirect) a.testDepsDirect)
        a.testDepsIndirect)
      (jsAssign (jsAssign (jsAssign a.depsDirect a.depsIndirect) a.testDepsDirect)
        a.testDepsIndirect) [] with
  | error e =>
    rw [h1] at h
    cases h
  | ok triple1 =>
    obtain ⟨dm, cache1, log1⟩ := triple1
    rw [h1] at h
    dsimp only at h
    cases h2 : loadDepsWith (fun n vm c => loadPackage lstore proot fuel n vm c)
        a.testDepsDirect
        (jsAssign (jsAssign (jsAssign a.depsDirect a.depsIndirect) a.testDepsDirect)
          a.testDepsIndirect) cache1 with
    | error e =>
      rw [h2] at h
      cases h
    | ok triple2 =>
      obtain ⟨tdm, cache2, log2⟩ := triple2
      rw [h2] at h
      dsimp only at h
      have hp := (Except.ok.inj h).symm
      subst hp
      have hmergedNodup :
          ((jsAssign (jsAssign (jsAssign a.depsDirect a.depsIndirect) a.testDepsDirect)
            a.testDepsIndirect).map Prod.fst).Nodup :=
        keys_nodup_jsAssign _ _
          (keys_nodup_jsAssign _ _ (keys_nodup_jsAssign _ _ hd))
      constructor
      · have := loadDepsWithAux_keys
          (fun n vm c => loadPackage lstore proot fuel n vm c) _
          _ [] [] [] _ h1 hmergedNodup (fun k _ => rfl)
        simpa [Project.dependencies] using this
      · have := loadDepsWithAux_keys
          (fun n vm c => loadPackage lstore proot fuel n vm c) _
          _ cache1 [] [] _ h2 ht (fun k _ => rfl)
        simpa [Project.testDependencies] using this

/-- C6 counterexample: for the application manifest `appJsonXY` with direct
dependency `a/x` and INDIRECT dependency `a/y`, the loaded root Project's
`dependencies` map also contains the indirect name `a/y` — not only the
names listed under `dependencies.direct` as the claim states. -/
theorem application_dependencies_only_direct_counterexample :
    Except.map (fun p => p.dependencies.map Prod.fst)
      (loadRootProject 3 [] loaderStoreXY "pkgs/" "/root" "file:///root"
        (.application appJsonXY)) = .ok ["a/x", "a/y"] ∧
    appJsonXY.depsDirect.map Prod.fst = ["a/x"] ∧
    "a/y" ∉ appJsonXY.depsDirect.map Prod.fst := by
  refine ⟨by rfl, by rfl, by decide⟩

/-- C6 witness: the amended theorem applied to the concrete manifest
`appJsonXY` and its loaded root project. -/
theorem application_dependency_maps_match_manifest_witness :
    appProjXY.dependencies.map Prod.fst =
      (jsAssign (jsAssign (jsAssign appJsonXY.depsDirect appJsonXY.depsIndirect)
        appJsonXY.testDepsDirect) appJsonXY.testDepsIndirect).map Prod.fst ∧
    appProjXY.testDependencies.map Prod.fst = appJsonXY.testDepsDirect.map Prod.fst :=
  application_dependency_maps_match_manifest 3 [] loaderStoreXY "pkgs/" "/root"
    "file:///root" appJsonXY appProjXY (by rfl) (by decide) (by decide)

/-- C1 counterexample: on the concrete store `exampleStoreA` with root
constraints `exampleRootA`, the solver assigns `elm/c` version 2.0.0 before
processing `elm/b`, then accepts `elm/b@1.0.0` whose manifest requires
`elm/c` in `[1.0.0, 2.0.0)` because the constraint intersection is merely
non-empty — the already assigned `elm/c@2.0.0` is never re-checked.  The
returned assignment violates a constraint declared by another chosen package
version, so the claimed transitive soundness of the result is false. -/
theorem resolver_transitive_soundness_counterexample :
    solveDependencies 10 exampleStoreA exampleRootA = some exampleResultA ∧
    resolvedSound exampleStoreA exampleRootA exampleResultA = false := by
  refine ⟨by decide, by decide⟩

/-- C1 (amended): for every input constraint map on which the dependency
solver returns an assignment, every assigned package name that the ROOT
constraint map constrains is assigned a store-available version satisfying
that root constraint.  (A constraint declared by a package version chosen
AFTER the name was assigned is only intersected into the frontier and may be
violated by the earlier assignment, as the counterexample shows.) -/
theorem resolver_sound_for_root_constraints
    (fuel : Nat) (store : SolverStore) (deps0 : List (String × Constraint))
    (m : List (String × Version)) (n : String) (c : Constraint) (v : Version)
    (h : solveDependencies fuel store deps0 = some m)
    (hc : lookupKey n deps0 = some c)
    (hv : lookupKey n m = some v) :
    satisfiesConstraint v c = true ∧ versionInStore store n v = true := by
  obtain ⟨v', hv', hstore, hsat⟩ := solveDependencies_satAssign h n c hc
  have hveq : v' = v := by
    rw [hv'] at hv
    exact Option.some.inj hv
  subst hveq
  exact ⟨hsat, hstore⟩

/-- C1 witness: the amended theorem applied to the concrete solver run of the
counterexample store — the root constraint on `elm/c` is satisfied by the
assigned 2.0.0. -/
theorem resolver_sound_for_root_constraints_witness :
    satisfiesConstraint v200 range13 = true ∧
    versionInStore exampleStoreA "elm/c" v200 = true :=
  resolver_sound_for_root_constraints 10 exampleStoreA exampleRootA exampleResultA
    "elm/c" range13 v200 (by decide) (by rfl) (by rfl)

/-- C4 counterexample: the package-kind root manifest `transPkgJson` over
`transStore` is TRANSITIVELY unsatisfiable over the local package store — no
assignment of store-available versions satisfies the root constraints
together with the constraints declared by the chosen packages' manifests
(any root-satisfying assignment must pick `elm/c@2.0.0` and `elm/b@1.0.0`,
and `elm/b@1.0.0` declares `elm/c` in `[1.0.0, 2.0.0)`).  Yet the solver
assigns `elm/c@2.0.0` before processing `elm/b` and never re-checks it, so
solving SUCCEEDS and `loadRootProject` returns a Project, silently using the
invalid assignment instead of failing with a user-visible error. -/
theorem transitively_unsatisfiable_constraints_accepted_counterexample :
    (¬ ∃ m, TransSatAssign transStore
      (jsAssign transPkgJson.dependencies transPkgJson.testDependencies) m) ∧
    solveDependencies 6 transStore
      (jsAssign transPkgJson.dependencies transPkgJson.testDependencies) =
      some [("elm/c", v200), ("elm/b", v100)] ∧
    satisfiesConstraint v200 range12 = false ∧
    (loadRootProject 6 transStore transLoaderStore "pkgs/" "/root" "file:///root"
      (.package transPkgJson)).isOk = true := by
  refine ⟨?_, by decide, by decide, by decide⟩
  rintro ⟨m, hroot, htrans⟩
  obtain ⟨vb, hvb, hvbStore, hvbSat⟩ := hroot "elm/b" range12 (by rfl)
  obtain ⟨vc, hvc, hvcStore, hvcSat⟩ := hroot "elm/c" range13 (by rfl)
  have hvb1 : vb = v100 := by
    simp [versionInStore, storeGet, transStore, lookupKey] at hvbStore
    exact hvbStore.symm
  have hvc2 : vc = v200 := by
    simp [versionInStore, storeGet, transStore, lookupKey] at hvcStore
    exact hvcStore.symm
  subst hvb1
  subst hvc2
  have hbad := htrans "elm/b" v100 ⟨v100, [("elm/c", range12)]⟩ "elm/c" v200 range12
    hvb (by decide) rfl (by decide) (by rfl) hvc
  exact absurd hbad (by decide)

/-- C4 (amended): for a package-kind root manifest whose combined direct and
test-direct constraint map admits NO per-name assignment of store-available
versions satisfying each of its own constraints, solving fails, and
`loadRootProject` returns the user-visible unsolvable-constraints error,
which is distinct from a file-not-found error; no Project is produced.  (When
the map is per-name satisfiable but only TRANSITIVELY unsatisfiable — a
chosen package's manifest conflicting with a version assigned before it was
chosen — the solver can still return an assignment and `loadRootProject`
silently uses it, as the counterexample shows.) -/
theorem unsolvable_package_constraints_fail_loudly
    (fuel : Nat) (sstore : SolverStore) (lstore : LoaderStore)
    (proot rpath ruri : String) (pj : PackageJson)
    (hunsat : ¬ ∃ m, SatAssign sstore (jsAssign pj.dependencies pj.testDependencies) m) :
    solveDependencies fuel sstore (jsAssign pj.dependencies pj.testDependencies) = none ∧
    loadRootProject fuel sstore lstore proot rpath ruri (.package pj) =
      .error (.unsolvableConstraints elmJsonProblemMessage) ∧
    isFileNotFoundError (LoadError.unsolvableConstraints elmJsonProblemMessage) = false := by
  have hsolve : solveDependencies fuel sstore
      (jsAssign pj.dependencies pj.testDependencies) = none := by
    cases hs : solveDependencies fuel sstore
        (jsAssign pj.dependencies pj.testDependencies) with
    | some m => exact absurd ⟨m, solveDependencies_satAssign hs⟩ hunsat
    | none => rfl
  refine ⟨hsolve, ?_, rfl⟩
  simp only [loadRootProject, hsolve]

/-- C4 witness: the concrete package manifest `unsatPkgJson` requires
`elm/a` in `[2.0.0, 3.0.0)` while the store only offers 1.0.0, so the
constraint map is unsatisfiable and the theorem yields the distinct
user-visible failure. -/
theorem unsolvable_package_constraints_fail_loudly_witness :
    solveDependencies 5 unsatStore
      (jsAssign unsatPkgJson.dependencies unsatPkgJson.testDependencies) = none ∧
    loadRootProject 5 unsatStore [] "pkgs/" "/root" "file:///root"
      (.package unsatPkgJson) =
      .error (.unsolvableConstraints elmJsonProblemMessage) ∧
    isFileNotFoundError (LoadError.unsolvableConstraints elmJsonProblemMessage) = false := by
  refine unsolvable_package_constraints_fail_loudly 5 unsatStore [] "pkgs/" "/root"
    "file:///root" unsatPkgJson ?_
  rintro ⟨m, hm⟩
  obtain ⟨v, hv, hstore, hsat⟩ := hm "elm/a" range23 (by rfl)
  have hveq : v = v100 := by
    simp [versionInStore, storeGet, unsatStore, lookupKey] at hstore
    exact hstore.symm
  subst hveq
  exact absurd hsat (by decide)
